import Mathlib

/-!
Verification of the record-store and extraction logic of `src/app.py`
(a Streamlit personal-assistant app storing JSON collections in a remote
versioned file backend).

The development shallowly embeds:
  * JSON values (`Json`) and the fragment of Python's `json` module the app
    relies on: `json.loads` (`pyLoads`, a fuel-based recursive-descent
    reader) and `json.dumps(data, indent=4, ensure_ascii=False)`
    (`pyDumps`).  Numbers are modelled as integers (every number appearing
    in the app's data and in the spec's examples is an integer); objects
    are insertion-ordered key/value pair lists.
  * the remote versioned file backend (modelled from the spec, see
    `RepoFile`), and `DataManager.load` / `DataManager.save` translated
    from `src/app.py` lines 128-153.
  * the reply-normalisation function `clean_json_str` (lines 163-166),
    including the exact `re.sub` semantics of removing every
    non-overlapping occurrence, left to right.
  * the extraction wrappers `ai_parse_calendar` / `ai_parse_finance`
    (lines 168-214), parameterised by the language model's reply, which is
    an external input.
  * the de-duplicating calendar import (lines 276-284) and the manual
    note record construction (lines 412-423).
-/

/-- A JSON value.  Python `dict`s are modelled as insertion-ordered
key/value pair lists and numbers as integers (`json.dumps` prints integers
in decimal; the float/scientific number forms never occur in this app's
data). -/
inductive Json where
  | null
  | bool (b : Bool)
  | num (n : Int)
  | str (s : String)
  | arr (elems : List Json)
  | obj (members : List (String × Json))

/-- The backtick character, written by code point. -/
def tick : Char := Char.ofNat 96

/-- JSON whitespace: exactly the four characters `json.loads` skips
between tokens. -/
def jsonWs (c : Char) : Bool :=
  decide (c = ' ' ∨ c = '\t' ∨ c = '\n' ∨ c = '\r')

/-- Drop leading JSON whitespace. -/
def eatWs : List Char → List Char
  | c :: r => if jsonWs c then eatWs r else c :: r
  | [] => []

/-- Python whitespace, as used by `str.strip()` and the regex class `\s`
(restricted to ASCII: space, tab, newline, carriage return, form feed,
vertical tab). -/
def pySpace (c : Char) : Bool :=
  decide (c = ' ' ∨ c = '\t' ∨ c = '\n' ∨ c = '\r' ∨
    c = Char.ofNat 11 ∨ c = Char.ofNat 12)

/-- Value of a hexadecimal digit, if the character is one. -/
def hexDigitVal (c : Char) : Option Nat :=
  if '0' ≤ c ∧ c ≤ '9' then some (c.toNat - 48)
  else if 'a' ≤ c ∧ c ≤ 'f' then some (c.toNat - 87)
  else if 'A' ≤ c ∧ c ≤ 'F' then some (c.toNat - 55)
  else none

/-- Value of a four-hex-digit group (as in a `\uXXXX` escape). -/
def hexQuad (a b c d : Char) : Option Nat := do
  let va ← hexDigitVal a
  let vb ← hexDigitVal b
  let vc ← hexDigitVal c
  let vd ← hexDigitVal d
  pure (((va * 16 + vb) * 16 + vc) * 16 + vd)

/-- The character denoted by a single-letter JSON string escape. -/
def escSeq (c : Char) : Option Char :=
  if c = '"' then some '"'
  else if c = '\\' then some '\\'
  else if c = '/' then some '/'
  else if c = 'b' then some (Char.ofNat 8)
  else if c = 'f' then some (Char.ofNat 12)
  else if c = 'n' then some '\n'
  else if c = 'r' then some '\r'
  else if c = 't' then some '\t'
  else none

/-- Read the body of a JSON string (after the opening quote) up to the
closing quote.  As in Python's strict mode, a raw control character
(code point below 32) is rejected; escapes are the single-letter ones and
`\uXXXX`. -/
def pyStrBody (acc : List Char) : List Char → Option (String × List Char)
  | [] => none
  | c :: r =>
    if c = '"' then some (String.mk acc.reverse, r)
    else if c = '\\' then
      match r with
      | [] => none
      | e :: r2 =>
        if e = 'u' then
          match r2 with
          | a :: b :: c2 :: d :: r3 =>
            match hexQuad a b c2 d with
            | some n => pyStrBody (Char.ofNat n :: acc) r3
            | none => none
          | _ => none
        else
          match escSeq e with
          | some ch => pyStrBody (ch :: acc) r2
          | none => none
    else if c.toNat < 32 then none
    else pyStrBody (c :: acc) r

/-- Decimal digit test. -/
def isDig (c : Char) : Bool := '0' ≤ c && c ≤ '9'

/-- Split off the leading run of decimal digits. -/
def grabDigits : List Char → List Char × List Char
  | [] => ([], [])
  | c :: r =>
    if isDig c then (c :: (grabDigits r).1, (grabDigits r).2)
    else ([], c :: r)

/-- The natural number a digit run denotes. -/
def digitsNat (ds : List Char) : Nat :=
  ds.foldl (fun a c => a * 10 + (c.toNat - 48)) 0

/-- Read an integer JSON number: an optional minus sign and a nonempty
digit run.  (The app's data only ever contains integers, so the model
restricts JSON numbers to the integer fragment.) -/
def pyNum (cs : List Char) : Option (Int × List Char) :=
  match cs with
  | [] => none
  | c :: r =>
    if c = '-' then
      if (grabDigits r).1.isEmpty then none
      else some (-(digitsNat (grabDigits r).1 : Int), (grabDigits r).2)
    else
      if (grabDigits (c :: r)).1.isEmpty then none
      else some ((digitsNat (grabDigits (c :: r)).1 : Int), (grabDigits (c :: r)).2)

/-- A remainder that cannot extend a number token: empty or starting with
a non-digit.  Every character that can follow a serialised value
(a comma, a newline, a closing bracket, end of input) qualifies. -/
def noDigStart : List Char → Bool
  | [] => true
  | c :: _ => !(isDig c)

mutual
/-- Read one JSON value (fuel-based recursive descent; the fuel is spent
once per nested reader call, so input length plus one always suffices). -/
def pyVal : Nat → List Char → Option (Json × List Char)
  | 0, _ => none
  | fu + 1, cs =>
    match eatWs cs with
    | 'n' :: 'u' :: 'l' :: 'l' :: r => some (.null, r)
    | 't' :: 'r' :: 'u' :: 'e' :: r => some (.bool true, r)
    | 'f' :: 'a' :: 'l' :: 's' :: 'e' :: r => some (.bool false, r)
    | '"' :: r =>
      match pyStrBody [] r with
      | some (s, rest) => some (.str s, rest)
      | none => none
    | '[' :: r =>
      match eatWs r with
      | [] => none
      | c2 :: r2 =>
        if c2 = ']' then some (.arr [], r2)
        else
          match pyElems fu (c2 :: r2) with
          | some (l, rest) => some (.arr l, rest)
          | none => none
    | '\x7b' :: r =>
      match eatWs r with
      | [] => none
      | c2 :: r2 =>
        if c2 = '\x7d' then some (.obj [], r2)
        else
          match pyPairs fu (c2 :: r2) with
          | some (ms, rest) => some (.obj ms, rest)
          | none => none
    | c :: r =>
      if c == '-' || isDig c then
        match pyNum (c :: r) with
        | some (n, rest) => some (.num n, rest)
        | none => none
      else none
    | [] => none
  termination_by structural fu => fu

/-- Read a comma-separated nonempty list of values up to `]`. -/
def pyElems : Nat → List Char → Option (List Json × List Char)
  | 0, _ => none
  | fu + 1, cs =>
    match pyVal fu cs with
    | none => none
    | some (j, r) =>
      match eatWs r with
      | [] => none
      | c2 :: r2 =>
        if c2 = ',' then
          match pyElems fu r2 with
          | some (l, rest) => some (j :: l, rest)
          | none => none
        else if c2 = ']' then some ([j], r2)
        else none
  termination_by structural fu => fu

/-- Read a comma-separated nonempty list of `"key": value` pairs up to
the closing brace. -/
def pyPairs : Nat → List Char → Option (List (String × Json) × List Char)
  | 0, _ => none
  | fu + 1, cs =>
    match eatWs cs with
    | '"' :: r =>
      match pyStrBody [] r with
      | none => none
      | some (k, r1) =>
        match eatWs r1 with
        | ':' :: r2 =>
          match pyVal fu r2 with
          | none => none
          | some (v, r3) =>
            match eatWs r3 with
            | [] => none
            | c4 :: r4 =>
              if c4 = ',' then
                match pyPairs fu r4 with
                | some (ms, rest) => some ((k, v) :: ms, rest)
                | none => none
              else if c4 = '\x7d' then some ([(k, v)], r4)
              else none
        | _ => none
    | _ => none
  termination_by structural fu => fu
end

/-- Python `json.loads`: read one value, allowing surrounding whitespace and
nothing else; `none` models a raised `JSONDecodeError`. -/
def pyLoads (s : String) : Option Json :=
  match pyVal (s.data.length + 1) s.data with
  | some (j, r) => if eatWs r = [] then some j else none
  | none => none

/-- Decimal digit character for `d < 10`. -/
def digCh (d : Nat) : Char := Char.ofNat (48 + d)

/-- Decimal digit characters of `n`, most significant first (fuel-based so
that it is structurally recursive; `n + 1` units always suffice). -/
def natChars : Nat → Nat → List Char
  | 0, _ => []
  | f + 1, n => if n < 10 then [digCh n] else natChars f (n / 10) ++ [digCh (n % 10)]

/-- Decimal digit characters of a natural number. -/
def natStr (n : Nat) : List Char := natChars (n + 1) n

/-- Characters of an integer as Python prints one: optional minus sign,
then decimal digits. -/
def intChars (i : Int) : List Char :=
  if i < 0 then '-' :: natStr i.natAbs else natStr i.natAbs

/-- Lowercase hexadecimal digit character for `d < 16`. -/
def hexCh (d : Nat) : Char :=
  if d < 10 then Char.ofNat (48 + d) else Char.ofNat (87 + d)

/-- One string character as `json.dumps(..., ensure_ascii=False)` writes
it: the two-character escapes for quote, backslash and the five control
shorthands, `\u00xx` for the remaining control characters, and every
other character (including all non-ASCII) literally. -/
def escChar (c : Char) : List Char :=
  if c = '"' then ['\\', '"']
  else if c = '\\' then ['\\', '\\']
  else if c = '\n' then ['\\', 'n']
  else if c = '\r' then ['\\', 'r']
  else if c = '\t' then ['\\', 't']
  else if c = Char.ofNat 8 then ['\\', 'b']
  else if c = Char.ofNat 12 then ['\\', 'f']
  else if c.toNat < 32 then
    ['\\', 'u', '0', '0', hexCh (c.toNat / 16), hexCh (c.toNat % 16)]
  else [c]

/-- The escaped body of a JSON string literal. -/
def escBody (s : String) : List Char := s.data.flatMap escChar

/-- A JSON string literal: quote, escaped body, quote. -/
def strChars (s : String) : List Char := '"' :: (escBody s ++ ['"'])

/-- Newline followed by the four-spaces-per-level indentation
`json.dumps(..., indent=4)` puts before each element. -/
def nlInd (lvl : Nat) : List Char := '\n' :: List.replicate (4 * lvl) ' '

mutual
/-- Characters of a value at indentation level `lvl`, exactly as
`json.dumps(v, indent=4, ensure_ascii=False)` lays them out. -/
def dVal : Nat → Json → List Char
  | _, .null => ['n', 'u', 'l', 'l']
  | _, .bool true => ['t', 'r', 'u', 'e']
  | _, .bool false => ['f', 'a', 'l', 's', 'e']
  | _, .num i => intChars i
  | _, .str s => strChars s
  | _, .arr [] => ['[', ']']
  | lvl, .arr (x :: xs) =>
    '[' :: (nlInd (lvl + 1) ++ dItems (lvl + 1) x xs ++ nlInd lvl ++ [']'])
  | _, .obj [] => ['\x7b', '\x7d']
  | lvl, .obj (p :: ps) =>
    '\x7b' :: (nlInd (lvl + 1) ++ dPairs (lvl + 1) p ps ++ nlInd lvl ++ ['\x7d'])
  termination_by _ j => sizeOf j

/-- Characters of a nonempty element list: items separated by a comma,
newline and indentation. -/
def dItems : Nat → Json → List Json → List Char
  | lvl, x, [] => dVal lvl x
  | lvl, x, y :: ys => dVal lvl x ++ ',' :: (nlInd lvl ++ dItems lvl y ys)
  termination_by _ x xs => sizeOf x + sizeOf xs + 1

/-- Characters of a nonempty member list: `"key": value` pairs separated
by a comma, newline and indentation. -/
def dPairs : Nat → String × Json → List (String × Json) → List Char
  | lvl, (k, v), [] => strChars k ++ ':' :: ' ' :: dVal lvl v
  | lvl, (k, v), q :: qs =>
    strChars k ++ ':' :: ' ' :: dVal lvl v ++ ',' :: (nlInd lvl ++ dPairs lvl q qs)
  termination_by _ p ps => sizeOf p + sizeOf ps + 1
end

/-- Python `json.dumps(j, indent=4, ensure_ascii=False)`. -/
def pyDumps (j : Json) : String := String.mk (dVal 0 j)

/-- The characters of the opening fence marker, `---json` with backticks
for the dashes. -/
def fenceJson : List Char := [tick, tick, tick, 'j', 's', 'o', 'n']

/-- One pass of `re.sub(r"---json\s*", "", s)` (backticks for the dashes):
scan left to right; at a match, drop the marker and the greedy whitespace
run after it and continue after the match; otherwise keep the character.
Fuel-based so that it is structurally recursive; length plus one always
suffices, since every step consumes at least one character. -/
def subFenceF : Nat → List Char → List Char
  | 0, cs => cs
  | _ + 1, [] => []
  | f + 1, c :: r =>
    if (c :: r).take 7 = fenceJson then
      subFenceF f (((c :: r).drop 7).dropWhile pySpace)
    else c :: subFenceF f r

/-- Python `re.sub(r"---json\s*", "", s)` with backticks for the dashes. -/
def subFence (cs : List Char) : List Char := subFenceF (cs.length + 1) cs

/-- Python `re.sub(r"---", "", s)` with backticks for the dashes: remove every
non-overlapping occurrence of three backticks, left to right. -/
def subTicks : List Char → List Char
  | [] => []
  | [c] => [c]
  | [c, d] => [c, d]
  | c :: d :: e :: r =>
    if c = tick ∧ d = tick ∧ e = tick then subTicks r
    else c :: subTicks (d :: e :: r)

/-- Python `str.strip()`: drop leading and trailing whitespace. -/
def pyStrip (cs : List Char) : List Char :=
  ((cs.dropWhile pySpace).reverse.dropWhile pySpace).reverse

/-- The function `clean_json_str` from `src/app.py` lines 163-166: substitute away every
occurrence of the `json` fence marker with its trailing whitespace, then
every occurrence of three backticks, then strip surrounding whitespace. -/
def clean_json_str (s : String) : String :=
  String.mk (pyStrip (subTicks (subFence s.data)))

/-- Modelled from the spec: the remote versioned file backend is out of
scope and consumed only through the narrow contract "fetch current content
plus version token for a named path" / "replace content at a named path
conditioned on a version token, or create if none exists"; following the
spec's conditional-write test, the stub stores content verbatim and
advances its version token on every successful write.  `Option RepoFile`
is the state of one named path: `none` when the file does not exist. -/
structure RepoFile where
  text : String
  sha : Nat

namespace DataManager

/-- Method `DataManager.load` (`src/app.py` lines 128-140): fetch the file and
its version token; parse the text as JSON, replacing a non-list value by
the empty list.  A retrieval failure yields `([], none)`; a parse failure
is caught by the inner handler, which still returns the fetched token. -/
def load (repo : Option RepoFile) : List Json × Option Nat :=
  match repo with
  | none => ([], none)
  | some f =>
    match pyLoads f.text with
    | some (.arr l) => (l, some f.sha)
    | some _ => ([], some f.sha)
    | none => ([], some f.sha)

/-- Method `DataManager.save` (`src/app.py` lines 142-153): serialise `data` with
`json.dumps(data, indent=4, ensure_ascii=False)`; with a token, perform a
conditional update (the stub rejects a mismatched token); without one,
create the file (the stub rejects a create when the file exists).  Any
failure is caught and reported as `false`, leaving the backend unchanged;
there is no retry. -/
def save (repo : Option RepoFile) (data : List Json) (sha : Option Nat)
    (msg : String) : Bool × Option RepoFile :=
  let content := pyDumps (.arr data)
  match sha with
  | some s =>
    match repo with
    | some f => if f.sha = s then (true, some ⟨content, f.sha + 1⟩) else (false, repo)
    | none => (false, repo)
  | none =>
    match repo with
    | none => (true, some ⟨content, 0⟩)
    | some _ => (false, repo)

end DataManager

/-- Function `ai_parse_calendar` (`src/app.py` lines 168-192), with the language
model call abstracted: `reply` is the completion text, `none` modelling a
raised network error.  The reply is cleaned, parsed, and a non-list value
is wrapped as a one-element list; every failure yields `[]`. -/
def ai_parse_calendar (reply : Option String) : List Json :=
  match reply with
  | none => []
  | some s =>
    match pyLoads (clean_json_str s) with
    | some (.arr l) => l
    | some j => [j]
    | none => []

/-- Function `ai_parse_finance` (`src/app.py` lines 194-214), with the language
model call abstracted as in `ai_parse_calendar`: the cleaned reply is
parsed and returned as-is; every failure yields `none`. -/
def ai_parse_finance (reply : Option String) : Option Json :=
  match reply with
  | none => none
  | some s => pyLoads (clean_json_str s)

mutual
/-- Node count of a value, an executable bound on its nesting depth. -/
def jsize : Json → Nat
  | .arr l => 1 + jsizeL l
  | .obj ms => 1 + jsizeM ms
  | _ => 1
  termination_by j => sizeOf j

/-- Summed node count of an element list. -/
def jsizeL : List Json → Nat
  | [] => 0
  | x :: xs => jsize x + jsizeL xs
  termination_by l => sizeOf l

/-- Summed node count of a member list. -/
def jsizeM : List (String × Json) → Nat
  | [] => 0
  | (_, v) :: ms => jsize v + jsizeM ms
  termination_by l => sizeOf l
end

/-- Python `str()` of a value, for the fingerprint f-string, fuel-based
(the fuel is spent once per nesting level).  Containers print in `repr`
form; the quote-escaping corners of `repr` on exotic strings are not
modelled, as no claim touches them. -/
def pyReprF : Nat → Json → String
  | 0, _ => ""
  | f + 1, j =>
    match j with
    | .null => "None"
    | .bool true => "True"
    | .bool false => "False"
    | .num i => String.mk (intChars i)
    | .str s => "'" ++ s ++ "'"
    | .arr l => "[" ++ ", ".intercalate (l.map (pyReprF f)) ++ "]"
    | .obj ms =>
      "\x7b" ++ ", ".intercalate (ms.map (fun kv => "'" ++ kv.1 ++ "': " ++ pyReprF f kv.2)) ++ "\x7d"

/-- Python `str()` as an f-string applies it: a string stays itself,
anything else prints in `repr` form. -/
def pyStr : Json → String
  | .str s => s
  | j => pyReprF (jsize j + 1) j

/-- Python `str()` of an `e.get(...)` result: a missing key gives `None`,
which prints as the four characters `None`. -/
def pyStrOpt : Option Json → String
  | none => "None"
  | some j => pyStr j

/-- Python dict lookup on the model's pair list: the last binding of a key
wins, as when `dict` collapses duplicate keys. -/
def lookupLast (kvs : List (String × Json)) (k : String) : Option Json :=
  kvs.foldl (fun acc kv => if kv.1 = k then some kv.2 else acc) none

/-- Subscription `e[k]`: `none` models the `KeyError`/`TypeError` raised
when the key is missing or the value is not a dict. -/
def getItem (j : Json) (k : String) : Option Json :=
  match j with
  | .obj kvs => lookupLast kvs k
  | _ => none

/-- Lookup `e.get(k)`: the outer `none` models the `AttributeError` raised when
`e` is not a dict; `some none` is a present dict without the key. -/
def dictGet (j : Json) (k : String) : Option (Option Json) :=
  match j with
  | .obj kvs => some (lookupLast kvs k)
  | _ => none

/-- The fingerprint the import loop computes for an existing record, by
direct subscription: the f-string of `e['start']`, an underscore and
`e['title']`.  `none` models the exception a record missing either key
raises. -/
def fpExist (e : Json) : Option String :=
  match getItem e "start", getItem e "title" with
  | some s, some t => some (pyStr s ++ "_" ++ pyStr t)
  | _, _ => none

/-- The set comprehension over `events_data` building the existing
fingerprints (`src/app.py` line 276); `none` models the exception raised
on the first record missing a key. -/
def existing_fingerprints : List Json → Option (List String)
  | [] => some []
  | e :: ev =>
    match fpExist e, existing_fingerprints ev with
    | some s, some l => some (s :: l)
    | _, _ => none

/-- The fingerprint of a candidate record, read with `.get`: a missing key
contributes the text `None`; `none` models the exception raised when the
candidate is not a dict. -/
def fpNew (item : Json) : Option String :=
  match dictGet item "start", dictGet item "title" with
  | some s, some t => some (pyStrOpt s ++ "_" ++ pyStrOpt t)
  | _, _ => none

/-- The `.get`-based fingerprints of a record list, all at once; `none`
when some record is not a dict. -/
def fpAll : List Json → Option (List String)
  | [] => some []
  | it :: l =>
    match fpNew it, fpAll l with
    | some s, some r => some (s :: r)
    | _, _ => none

/-- The import loop of `src/app.py` lines 279-284: append a candidate only
when its fingerprint is not in the set, and add the fingerprint of every
accepted candidate so that duplicates within the batch are also
rejected. -/
def importLoop (events : List Json) (fps : List String) :
    List Json → Option (List Json)
  | [] => some events
  | it :: rest =>
    match fpNew it with
    | none => none
    | some fp =>
      if fps.contains fp then importLoop events fps rest
      else importLoop (events ++ [it]) (fp :: fps) rest

/-- The de-duplicating calendar import (`src/app.py` lines 276-284):
build the existing fingerprint set, then run the loop over the batch. -/
def import_events (events newItems : List Json) : Option (List Json) :=
  match existing_fingerprints events with
  | none => none
  | some fps => importLoop events fps newItems

/-- The record the manual note form hand-constructs (`src/app.py` lines
418-421): a dict with exactly a `content` field and a `date` field holding
the formatted current timestamp. -/
def noteRecord (content : String) (nowStr : String) : Json :=
  .obj [("content", .str content), ("date", .str nowStr)]

/-- The field names of a record, in insertion order. -/
def objKeys : Json → List String
  | .obj kvs => kvs.map Prod.fst
  | _ => []

/-- The note form submit handler (`src/app.py` lines 415-422): load the
notes collection, prepend the hand-constructed record and save with the
loaded token. -/
def note_submit (repo : Option RepoFile) (content nowStr : String) :
    Bool × Option RepoFile :=
  let loaded := DataManager.load repo
  DataManager.save repo (noteRecord content nowStr :: loaded.1) loaded.2 "Update"

/-! ## Claim C1: read after a parse error -/

/-- Claim C1 counterexample: on backing content that is not valid JSON,
`DataManager.load` returns the empty list paired with the file's current
version token, not with an absent token as the claim states. -/
theorem load_parse_error_keeps_token_cex :
    DataManager.load (some ⟨"not json", 5⟩) = ([], some 5) ∧
    DataManager.load (some ⟨"not json", 5⟩) ≠ ([], none) := by
  refine ⟨rfl, fun h => ?_⟩
  have h2 := congrArg Prod.snd h
  exact Option.noConfusion h2

/-- Claim C1 as amended: `DataManager.load` returns `([], absent)` exactly
on a retrieval error; on a parse error, or on content that parses to a
non-list value, it returns `[]` paired with the backing file's current
version token. -/
theorem load_error_token_amended (f : RepoFile) :
    DataManager.load none = ([], none) ∧
    (pyLoads f.text = none → DataManager.load (some f) = ([], some f.sha)) ∧
    (∀ j, pyLoads f.text = some j → (∀ l, j ≠ Json.arr l) →
      DataManager.load (some f) = ([], some f.sha)) := by
  refine ⟨rfl, fun h => ?_, fun j hj hne => ?_⟩
  · simp [DataManager.load, h]
  · cases j with
    | arr l => exact absurd rfl (hne l)
    | _ => simp [DataManager.load, hj]

/-- Claim C1 witness: the amended statement at two concrete backing
contents, invalid JSON and a bare object. -/
theorem load_error_token_amended_witness :
    DataManager.load (some ⟨"not json", 5⟩) = ([], some 5) ∧
    DataManager.load (some ⟨"\x7b\x7d", 3⟩) = ([], some 3) :=
  ⟨(load_error_token_amended ⟨"not json", 5⟩).2.1 rfl,
   (load_error_token_amended ⟨"\x7b\x7d", 3⟩).2.2 (.obj []) rfl
     (fun l h => Json.noConfusion h)⟩

/-! ## Claim C6: malformed backing content degrades to an empty sequence -/

/-- Claim C6: a bare-object backing value such as `\x7b\x7d`, or invalid
JSON text, makes `DataManager.load` return an empty sequence (the total
function models that no exception escapes); a successful read of a
well-formed backing value returns exactly the stored list, never a bare
object. -/
theorem load_malformed_degrades (s : Nat) (f : RepoFile) :
    DataManager.load (some ⟨"\x7b\x7d", s⟩) = ([], some s) ∧
    (pyLoads f.text = none → (DataManager.load (some f)).1 = []) ∧
    (∀ j, pyLoads f.text = some j → (∀ l, j ≠ Json.arr l) →
      (DataManager.load (some f)).1 = []) ∧
    (∀ l, pyLoads f.text = some (.arr l) → DataManager.load (some f) = (l, some f.sha)) := by
  refine ⟨rfl, fun h => ?_, fun j hj hne => ?_, fun l hl => ?_⟩
  · simp [DataManager.load, h]
  · cases j with
    | arr l => exact absurd rfl (hne l)
    | _ => simp [DataManager.load, hj]
  · simp [DataManager.load, hl]

/-- Claim C6 witness: the statement evaluated at invalid JSON content. -/
theorem load_malformed_degrades_witness :
    (DataManager.load (some ⟨"oops", 2⟩)).1 = [] ∧
    DataManager.load (some ⟨"[null]", 9⟩) = ([.null], some 9) :=
  ⟨(load_malformed_degrades 0 ⟨"oops", 2⟩).2.1 rfl,
   (load_malformed_degrades 0 ⟨"[null]", 9⟩).2.2.2 [.null] rfl⟩

/-! ## Claim C2: conditional write semantics -/

/-- Claim C2: `DataManager.save` with a token performs a conditional
update that succeeds exactly when the token matches the backing store's
current version; without a token it performs a create, which fails when
the file already exists; any failure returns `false` and leaves the
backend unchanged (no retry); and against the stub that advances its token
on every successful write, a write with token T1 succeeds once while a
second write reusing the now-stale T1 fails. -/
theorem save_conditional_write (f : RepoFile) (d d2 : List Json) (s : Nat)
    (m m2 : String) :
    ((DataManager.save (some f) d (some s) m).1 = true ↔ s = f.sha) ∧
    (DataManager.save none d (some s) m).1 = false ∧
    (DataManager.save none d none m).1 = true ∧
    (DataManager.save (some f) d none m).1 = false ∧
    (s ≠ f.sha → DataManager.save (some f) d (some s) m = (false, some f)) ∧
    ((DataManager.save (some f) d (some f.sha) m).1 = true ∧
     (DataManager.save (DataManager.save (some f) d (some f.sha) m).2 d2
        (some f.sha) m2).1 = false) := by
  refine ⟨?_, rfl, rfl, rfl, fun hne => ?_, ?_, ?_⟩
  · by_cases h : f.sha = s <;> simp [DataManager.save, h] <;> omega
  · have h : ¬ f.sha = s := fun h => hne h.symm
    simp [DataManager.save, h]
  · simp [DataManager.save]
  · simp [DataManager.save]

/-- Claim C2 witness: the conditional-write statement at a concrete file
with version 7, a mismatched token 5, and the stale-token replay. -/
theorem save_conditional_write_witness :
    (5 ≠ 7 ∧ DataManager.save (some ⟨"t", 7⟩) [] (some 5) "m" = (false, some ⟨"t", 7⟩)) ∧
    (DataManager.save (some ⟨"t", 7⟩) [] (some 7) "m").1 = true ∧
    (DataManager.save (DataManager.save (some ⟨"t", 7⟩) [] (some 7) "m").2 []
       (some 7) "n").1 = false :=
  ⟨⟨by decide, (save_conditional_write ⟨"t", 7⟩ [] [] 5 "m" "n").2.2.2.2.1 (by decide)⟩,
   (save_conditional_write ⟨"t", 7⟩ [] [] 5 "m" "n").2.2.2.2.2.1,
   (save_conditional_write ⟨"t", 7⟩ [] [] 5 "m" "n").2.2.2.2.2.2⟩

/-! ## Claim C7: calendar reply normalisation -/

/-- Claim C7: `ai_parse_calendar` returns a sequence: an array reply
parses to its elements, a single-object reply is wrapped into a
one-element sequence, and every failure (no reply, or a reply whose
cleaned text is not valid JSON) yields the empty sequence; the spec's
bare-object example normalises to the one-element sequence containing that
object. -/
theorem calendar_reply_normalization (s : String) (kvs : List (String × Json)) :
    ai_parse_calendar none = [] ∧
    (pyLoads (clean_json_str s) = none → ai_parse_calendar (some s) = []) ∧
    (pyLoads (clean_json_str s) = some (.obj kvs) →
      ai_parse_calendar (some s) = [.obj kvs]) ∧
    (∀ l, pyLoads (clean_json_str s) = some (.arr l) →
      ai_parse_calendar (some s) = l) ∧
    ai_parse_calendar (some "\x7b\"title\":\"Meeting\",\"start\":\"2024-05-01T15:00:00\"\x7d") =
      [.obj [("title", .str "Meeting"), ("start", .str "2024-05-01T15:00:00")]] := by
  refine ⟨rfl, fun h => ?_, fun h => ?_, fun l h => ?_, rfl⟩
  · simp [ai_parse_calendar, h]
  · simp [ai_parse_calendar, h]
  · simp [ai_parse_calendar, h]

/-- Claim C7 witness: the normalisation statement at the spec's bare
object reply and at an invalid reply. -/
theorem calendar_reply_normalization_witness :
    ai_parse_calendar (some "\x7b\"title\":\"Meeting\",\"start\":\"2024-05-01T15:00:00\"\x7d") =
      [.obj [("title", .str "Meeting"), ("start", .str "2024-05-01T15:00:00")]] ∧
    ai_parse_calendar (some "nonsense") = [] :=
  ⟨(calendar_reply_normalization "x" []).2.2.2.2,
   (calendar_reply_normalization "nonsense" []).2.1 rfl⟩

/-! ## Claim C4: finance extraction of an array reply -/

/-- Claim C4 counterexample: when the model reply parses as a JSON array,
`ai_parse_finance` returns the array itself, not its first element, and
returns the empty array (not `absent`) when the array is empty. -/
theorem finance_array_not_unwrapped_cex :
    ai_parse_finance (some "[\x7b\"item\":\"a\"\x7d]") =
      some (.arr [.obj [("item", .str "a")]]) ∧
    ai_parse_finance (some "[\x7b\"item\":\"a\"\x7d]") ≠ some (.obj [("item", .str "a")]) ∧
    ai_parse_finance (some "[]") = some (.arr []) ∧
    ai_parse_finance (some "[]") ≠ none := by
  refine ⟨rfl, fun h => ?_, rfl, fun h => Option.noConfusion h⟩
  have h2 : Json.arr [.obj [("item", .str "a")]] = Json.obj [("item", .str "a")] :=
    Option.some.inj h
  exact Json.noConfusion h2

/-- Claim C4 as amended: `ai_parse_finance` returns whatever JSON value
the cleaned reply parses to, unchanged — including a whole array — and
`absent` exactly on a missing reply or a parse failure; it never extracts
the first element of an array. -/
theorem finance_reply_passthrough (s : String) (j : Json) :
    ai_parse_finance none = none ∧
    (pyLoads (clean_json_str s) = none → ai_parse_finance (some s) = none) ∧
    (pyLoads (clean_json_str s) = some j → ai_parse_finance (some s) = some j) := by
  exact ⟨rfl, fun h => by simp [ai_parse_finance, h], fun h => by simp [ai_parse_finance, h]⟩

/-- Claim C4 witness: the pass-through statement at an array reply and at
an invalid reply. -/
theorem finance_reply_passthrough_witness :
    ai_parse_finance (some "[]") = some (.arr []) ∧
    ai_parse_finance (some "oops") = none :=
  ⟨(finance_reply_passthrough "[]" (.arr [])).2.2 rfl,
   (finance_reply_passthrough "oops" (.arr [])).2.1 rfl⟩

/-! ## Claim C9: the hand-constructed note record -/

/-- Claim C9 counterexample: the record the manual note form persists has
exactly the fields `content` and `date`; it has no `tags` field, so it
does not match the spec's Note field set (content, tags, created-at). -/
theorem note_record_no_tags_cex :
    objKeys (noteRecord "idea" "2024-05-01 10:00") = ["content", "date"] ∧
    "tags" ∉ objKeys (noteRecord "idea" "2024-05-01 10:00") ∧
    getItem (noteRecord "idea" "2024-05-01 10:00") "tags" = none := by
  exact ⟨rfl, by decide, rfl⟩

/-- Claim C9 as amended: the hand-constructed note record has exactly a
`content` field holding the entered text and a `date` field holding the
formatted timestamp — no `tags` field — and the submit handler persists it
by prepending it to the loaded notes collection. -/
theorem note_record_fields (c t : String) :
    objKeys (noteRecord c t) = ["content", "date"] ∧
    getItem (noteRecord c t) "content" = some (.str c) ∧
    getItem (noteRecord c t) "date" = some (.str t) ∧
    getItem (noteRecord c t) "tags" = none ∧
    (∀ repo, note_submit repo c t =
      DataManager.save repo (noteRecord c t :: (DataManager.load repo).1)
        (DataManager.load repo).2 "Update") := by
  refine ⟨rfl, ?_, ?_, ?_, fun repo => rfl⟩
  · simp [noteRecord, getItem, lookupLast]
  · simp [noteRecord, getItem, lookupLast]
  · simp [noteRecord, getItem, lookupLast]

/-! ## Claim C3: fence stripping removes every occurrence -/

/-- A `dropWhile` never lengthens a list. -/
theorem dropWhile_length_le (p : Char → Bool) (l : List Char) :
    (l.dropWhile p).length ≤ l.length := by
  induction l with
  | nil => simp
  | cons c r ih => rw [List.dropWhile_cons]; split <;> simp <;> omega

/-- The fence scanner ignores the exact fuel once it exceeds the input
length: every step consumes at least one character. -/
theorem subFenceF_fuel_eq : ∀ (f g : Nat) (cs : List Char),
    cs.length < f → cs.length < g → subFenceF f cs = subFenceF g cs := by
  intro f
  induction f with
  | zero => intro g cs hf _; omega
  | succ f ih =>
    intro g cs hf hg
    cases g with
    | zero => omega
    | succ g =>
      cases cs with
      | nil => rfl
      | cons c r =>
        simp only [List.length_cons] at hf hg
        simp only [subFenceF]
        by_cases htake : (c :: r).take 7 = fenceJson
        · simp only [if_pos htake]
          have hlen7 : 6 ≤ r.length := by
            have h7 := congrArg List.length htake
            rw [List.length_take] at h7
            simp only [fenceJson, List.length_cons] at h7
            omega
          have harg : (((c :: r).drop 7).dropWhile pySpace).length ≤ r.length - 6 := by
            have h1 := dropWhile_length_le pySpace ((c :: r).drop 7)
            have h2 : ((c :: r).drop 7).length = r.length - 6 := by
              simp [List.length_drop]
            omega
          exact ih g _ (by omega) (by omega)
        · simp only [if_neg htake]
          rw [ih g r (by omega) (by omega)]

/-- One scanner step when the position does not start a fence match: keep
the character. -/
theorem subFence_cons_of_ne (c : Char) (r : List Char)
    (h : (c :: r).take 7 ≠ fenceJson) : subFence (c :: r) = c :: subFence r := by
  show subFenceF ((c :: r).length + 1) (c :: r) = c :: subFenceF (r.length + 1) r
  simp only [List.length_cons, subFenceF, if_neg h]

/-- A backtick-free prefix passes through the fence scanner unchanged. -/
theorem subFence_append_nofence (a : List Char) (ha : ∀ c ∈ a, c ≠ tick)
    (r : List Char) : subFence (a ++ r) = a ++ subFence r := by
  induction a with
  | nil => rfl
  | cons c a2 ih =>
    have hc : c ≠ tick := ha c (by simp)
    have hne : ((c :: (a2 ++ r)).take 7) ≠ fenceJson := by
      intro hEq
      rw [List.take_succ_cons] at hEq
      exact hc (List.cons.inj hEq).1
    rw [List.cons_append, subFence_cons_of_ne c _ hne,
      ih (fun x hx => ha x (by simp [hx])), List.cons_append]

/-- A backtick-free text is a fixed point of the fence scanner. -/
theorem subFence_nofence (a : List Char) (ha : ∀ c ∈ a, c ≠ tick) :
    subFence a = a := by
  have h := subFence_append_nofence a ha []
  have h0 : subFence ([] : List Char) = [] := rfl
  simp only [h0, List.append_nil] at h
  exact h

/-- A bare triple backtick that is not followed by `json` passes through
the fence scanner (it only matches the seven-character marker). -/
theorem subFence_ticks3 (b : List Char) (hb : ∀ c ∈ b, c ≠ tick)
    (hj : b.take 4 ≠ ['j', 's', 'o', 'n']) :
    subFence (tick :: tick :: tick :: b) = tick :: tick :: tick :: subFence b := by
  have h1 : ((tick :: tick :: tick :: b).take 7) ≠ fenceJson := by
    intro hEq
    simp only [List.take_succ_cons, fenceJson, List.cons.injEq, true_and] at hEq
    exact hj hEq
  rw [subFence_cons_of_ne _ _ h1]
  have h2 : ((tick :: tick :: b).take 7) ≠ fenceJson := by
    intro hEq
    cases b with
    | nil => simp [fenceJson] at hEq
    | cons b0 b2 =>
      simp only [List.take_succ_cons, fenceJson, List.cons.injEq, true_and] at hEq
      exact hb b0 (by simp) hEq.1
  rw [subFence_cons_of_ne _ _ h2]
  have h3 : ((tick :: b).take 7) ≠ fenceJson := by
    intro hEq
    cases b with
    | nil => simp [fenceJson] at hEq
    | cons b0 b2 =>
      simp only [List.take_succ_cons, fenceJson, List.cons.injEq, true_and] at hEq
      exact hb b0 (by simp) hEq.1
  rw [subFence_cons_of_ne _ _ h3]

/-- One backtick scanner step on a non-backtick head. -/
theorem subTicks_cons_of_ne (c : Char) (r : List Char) (h : c ≠ tick) :
    subTicks (c :: r) = c :: subTicks r := by
  match r with
  | [] => rfl
  | [d] => rfl
  | d :: e :: r2 =>
    have : ¬(c = tick ∧ d = tick ∧ e = tick) := fun hc => h hc.1
    simp only [subTicks, if_neg this]

/-- A backtick-free prefix passes through the backtick scanner
unchanged. -/
theorem subTicks_append_noticks (a : List Char) (ha : ∀ c ∈ a, c ≠ tick)
    (r : List Char) : subTicks (a ++ r) = a ++ subTicks r := by
  induction a with
  | nil => rfl
  | cons c a2 ih =>
    rw [List.cons_append, subTicks_cons_of_ne c _ (ha c (by simp)),
      ih (fun x hx => ha x (by simp [hx])), List.cons_append]

/-- A backtick-free text is a fixed point of the backtick scanner. -/
theorem subTicks_noticks (a : List Char) (ha : ∀ c ∈ a, c ≠ tick) :
    subTicks a = a := by
  have h := subTicks_append_noticks a ha []
  have h0 : subTicks ([] : List Char) = [] := rfl
  simp only [h0, List.append_nil] at h
  exact h

/-- The backtick scanner removes a triple backtick wherever it stands. -/
theorem subTicks_ticks3 (b : List Char) :
    subTicks (tick :: tick :: tick :: b) = subTicks b := by
  simp [subTicks]

/-- Claim C3 counterexample: `clean_json_str` also removes a triple
backtick inside the JSON body, so the reply is not left unchanged outside
the leading and trailing fence markers. -/
theorem clean_json_str_interior_cex :
    clean_json_str "```json\n\x7b\"item\":\"a```b\"\x7d\n```" = "\x7b\"item\":\"ab\"\x7d" ∧
    clean_json_str "```json\n\x7b\"item\":\"a```b\"\x7d\n```" ≠ "\x7b\"item\":\"a```b\"\x7d" := by
  exact ⟨rfl, by decide⟩

/-- Claim C3 as amended: `clean_json_str` removes every occurrence of the
case-sensitive fence markers anywhere in the reply — the `json` marker
with its trailing whitespace, then every triple backtick — and strips the
surrounding whitespace; in particular a triple backtick standing between
backtick-free parts is removed wherever it occurs, and the spec's fenced
example cleans to the inner object text, which parses with
`amount == -20`. -/
theorem clean_json_str_removes_all (a b : List Char)
    (ha : ∀ c ∈ a, c ≠ tick) (hb : ∀ c ∈ b, c ≠ tick)
    (hj : b.take 4 ≠ ['j', 's', 'o', 'n']) :
    clean_json_str (String.mk (a ++ tick :: tick :: tick :: b)) =
      String.mk (pyStrip (a ++ b)) ∧
    clean_json_str "```json\n\x7b\"item\":\"coffee\",\"amount\":-20,\"category\":\"dining\",\"date\":\"2024-05-01\"\x7d\n```" =
      "\x7b\"item\":\"coffee\",\"amount\":-20,\"category\":\"dining\",\"date\":\"2024-05-01\"\x7d" ∧
    pyLoads (clean_json_str "```json\n\x7b\"item\":\"coffee\",\"amount\":-20,\"category\":\"dining\",\"date\":\"2024-05-01\"\x7d\n```") =
      some (.obj [("item", .str "coffee"), ("amount", .num (-20)),
        ("category", .str "dining"), ("date", .str "2024-05-01")]) ∧
    getItem (.obj [("item", .str "coffee"), ("amount", .num (-20)),
        ("category", .str "dining"), ("date", .str "2024-05-01")]) "amount" =
      some (.num (-20)) := by
  refine ⟨?_, rfl, rfl, rfl⟩
  show String.mk (pyStrip (subTicks (subFence (a ++ tick :: tick :: tick :: b)))) = _
  rw [subFence_append_nofence a ha, subFence_ticks3 b hb hj, subFence_nofence b hb,
    subTicks_append_noticks a ha, subTicks_ticks3, subTicks_noticks b hb]

/-- Claim C3 witness: the removal statement at a concrete reply with an
interior fence between backtick-free parts. -/
theorem clean_json_str_removes_all_witness :
    clean_json_str (String.mk ("x".data ++ tick :: tick :: tick :: "y".data)) =
      String.mk (pyStrip ("x".data ++ "y".data)) ∧
    clean_json_str "```json\n\x7b\"item\":\"coffee\",\"amount\":-20,\"category\":\"dining\",\"date\":\"2024-05-01\"\x7d\n```" =
      "\x7b\"item\":\"coffee\",\"amount\":-20,\"category\":\"dining\",\"date\":\"2024-05-01\"\x7d" :=
  ⟨(clean_json_str_removes_all "x".data "y".data (by decide) (by decide) (by decide)).1,
   (clean_json_str_removes_all "x".data "y".data (by decide) (by decide) (by decide)).2.1⟩

/-! ## Claims C5 and C10: the de-duplicating calendar import -/

/-- The comprehension fingerprint of a record exists exactly when the
record has both a `start` and a `title` key. -/
theorem fpExist_isSome (e : Json) :
    (fpExist e).isSome ↔ (getItem e "start").isSome ∧ (getItem e "title").isSome := by
  unfold fpExist
  cases h1 : getItem e "start" <;> cases h2 : getItem e "title" <;> simp

/-- When subscription succeeds, the `.get`-based fingerprint agrees with
the subscription-based one. -/
theorem fpNew_of_fpExist (e : Json) (s : String) (h : fpExist e = some s) :
    fpNew e = some s := by
  cases e with
  | obj kvs =>
    have hm : (match lookupLast kvs "start", lookupLast kvs "title" with
        | some a, some b => some (pyStr a ++ "_" ++ pyStr b)
        | _, _ => none) = some s := h
    show some (pyStrOpt (lookupLast kvs "start") ++ "_" ++
      pyStrOpt (lookupLast kvs "title")) = some s
    cases h1 : lookupLast kvs "start" with
    | none => rw [h1] at hm; simp at hm
    | some v1 =>
      cases h2 : lookupLast kvs "title" with
      | none => rw [h1, h2] at hm; simp at hm
      | some v2 =>
        rw [h1, h2] at hm
        simp only [Option.some.injEq] at hm
        simp only [pyStrOpt, Option.some.injEq]
        exact hm
  | null => exact Option.noConfusion h
  | bool b => exact Option.noConfusion h
  | num n => exact Option.noConfusion h
  | str t => exact Option.noConfusion h
  | arr l => exact Option.noConfusion h

/-- The existing-fingerprint comprehension runs without raising exactly
when every existing record has both keys. -/
theorem existing_fingerprints_isSome (ev : List Json) :
    (existing_fingerprints ev).isSome ↔
      ∀ e ∈ ev, (getItem e "start").isSome ∧ (getItem e "title").isSome := by
  induction ev with
  | nil => simp [existing_fingerprints]
  | cons e ev ih =>
    simp only [existing_fingerprints, List.mem_cons]
    cases h1 : fpExist e with
    | none =>
      have : ¬((getItem e "start").isSome ∧ (getItem e "title").isSome) := by
        rw [← fpExist_isSome, h1]; simp
      simp only [Option.isSome_none, Bool.false_eq_true]
      rw [false_iff]
      intro hall
      exact absurd (hall e (Or.inl rfl)) this
    | some s =>
      have he : (getItem e "start").isSome ∧ (getItem e "title").isSome := by
        rw [← fpExist_isSome, h1]; simp
      cases h2 : existing_fingerprints ev with
      | none =>
        rw [h2] at ih
        simp only [Option.isSome_none, Bool.false_eq_true, false_iff] at ih
        simp only [Option.isSome_none, Bool.false_eq_true]
        rw [false_iff]
        intro hall
        exact ih (fun x hx => hall x (Or.inr hx))
      | some l =>
        rw [h2] at ih
        simp only [Option.isSome_some, true_iff] at ih
        simp only [Option.isSome_some, true_iff]
        rintro x (rfl | hx)
        · exact he
        · exact ih x hx

/-- When the comprehension succeeds, the `.get`-based fingerprints of the
existing records are the same list. -/
theorem fpAll_of_existing (ev : List Json) (fps : List String)
    (h : existing_fingerprints ev = some fps) : fpAll ev = some fps := by
  induction ev generalizing fps with
  | nil => simpa [existing_fingerprints, fpAll] using h
  | cons e ev ih =>
    simp only [existing_fingerprints] at h
    cases h1 : fpExist e with
    | none => rw [h1] at h; simp at h
    | some s =>
      rw [h1] at h
      cases h2 : existing_fingerprints ev with
      | none => rw [h2] at h; simp at h
      | some l =>
        rw [h2] at h
        simp only [Option.some.injEq] at h
        simp only [fpAll, fpNew_of_fpExist e s h1, ih l h2, ← h]

/-- Fingerprinting distributes over appending one record. -/
theorem fpAll_append_one (acc : List Json) (accFps : List String)
    (it : Json) (fp : String) (ha : fpAll acc = some accFps)
    (hi : fpNew it = some fp) : fpAll (acc ++ [it]) = some (accFps ++ [fp]) := by
  induction acc generalizing accFps with
  | nil =>
    simp only [fpAll] at ha
    simp only [Option.some.injEq] at ha
    simp [fpAll, hi, ← ha]
  | cons e acc ih =>
    simp only [fpAll] at ha
    cases h1 : fpNew e with
    | none => rw [h1] at ha; simp at ha
    | some s =>
      rw [h1] at ha
      cases h2 : fpAll acc with
      | none => rw [h2] at ha; simp at ha
      | some l =>
        rw [h2] at ha
        simp only [Option.some.injEq] at ha
        simp [fpAll, h1, ih l h2, ← ha]

/-- The import loop only ever appends: its output extends the input
collection. -/
theorem importLoop_extends : ∀ (items acc_ : List Json) (fps : List String)
    (out : List Json), importLoop acc_ fps items = some out →
    ∃ kept, out = acc_ ++ kept := by
  intro items
  induction items with
  | nil =>
    intro acc_ fps out h
    simp only [importLoop, Option.some.injEq] at h
    exact ⟨[], by simp [← h]⟩
  | cons it rest ih =>
    intro acc_ fps out h
    simp only [importLoop] at h
    cases h1 : fpNew it with
    | none => rw [h1] at h; simp at h
    | some fp =>
      rw [h1] at h
      have h2 : (if fps.contains fp = true then importLoop acc_ fps rest
          else importLoop (acc_ ++ [it]) (fp :: fps) rest) = some out := h
      by_cases hc : fps.contains fp = true
      · rw [if_pos hc] at h2
        exact ih acc_ fps out h2
      · rw [if_neg hc] at h2
        obtain ⟨kept, hk⟩ := ih (acc_ ++ [it]) (fp :: fps) out h2
        exact ⟨it :: kept, by simp [hk]⟩

/-- The import loop preserves fingerprint distinctness: starting from a
collection with distinct fingerprints all recorded in the set, the output
has distinct fingerprints (duplicates against the collection and within
the batch are both rejected). -/
theorem importLoop_nodup : ∀ (items acc_ : List Json) (fps accFps : List String)
    (out : List Json), fpAll acc_ = some accFps → accFps.Nodup →
    (∀ x ∈ accFps, x ∈ fps) → importLoop acc_ fps items = some out →
    ∃ ofps, fpAll out = some ofps ∧ ofps.Nodup := by
  intro items
  induction items with
  | nil =>
    intro acc_ fps accFps out ha hnd _hsub h
    simp only [importLoop, Option.some.injEq] at h
    exact ⟨accFps, by simp [← h, ha], hnd⟩
  | cons it rest ih =>
    intro acc_ fps accFps out ha hnd hsub h
    simp only [importLoop] at h
    cases h1 : fpNew it with
    | none => rw [h1] at h; simp at h
    | some fp =>
      rw [h1] at h
      have h3 : (if fps.contains fp = true then importLoop acc_ fps rest
          else importLoop (acc_ ++ [it]) (fp :: fps) rest) = some out := h
      by_cases hc : fps.contains fp = true
      · rw [if_pos hc] at h3
        exact ih acc_ fps accFps out ha hnd hsub h3
      · rw [if_neg hc] at h3
        have hmem : fp ∉ fps := by
          intro hm
          exact hc (List.elem_eq_true_of_mem hm)
        refine ih (acc_ ++ [it]) (fp :: fps) (accFps ++ [fp]) out
          (fpAll_append_one acc_ accFps it fp ha h1) ?_ ?_ h3
        · rw [List.nodup_append]
          exact ⟨hnd, List.nodup_singleton fp,
            fun x hx hfx => hmem ((List.mem_singleton.mp hfx) ▸ hsub x hx)⟩
        · intro x hx
          rcases List.mem_append.mp hx with hx1 | hx2
          · exact List.mem_cons_of_mem fp (hsub x hx1)
          · simp only [List.mem_singleton] at hx2
            exact hx2 ▸ List.mem_cons_self fp fps

/-- Claim C5: the import fingerprints a candidate by joining its start
timestamp and title (exact match), appends it only when the fingerprint is
absent from the set derived from the existing collection, adds every
accepted fingerprint to the set so in-batch duplicates are also rejected
(so the output collection keeps fingerprints distinct), only ever appends,
and on the spec's example batch of one identical and one differing
candidate the collection grows by exactly one record. -/
theorem calendar_import_dedup (ev items : List Json) (fps : List String)
    (out : List Json) (hfps : existing_fingerprints ev = some fps)
    (hnd : fps.Nodup) (hrun : import_events ev items = some out) :
    (∃ kept, out = ev ++ kept) ∧
    (∃ ofps, fpAll out = some ofps ∧ ofps.Nodup) ∧
    fpNew (.obj [("start", .str "2024-05-01T15:00:00"), ("title", .str "Meeting")]) =
      some "2024-05-01T15:00:00_Meeting" ∧
    (∀ (acc2 : List Json) (fps2 : List String) (it : Json) (fp : String)
      (rest : List Json), fpNew it = some fp →
      (fps2.contains fp = true →
        importLoop acc2 fps2 (it :: rest) = importLoop acc2 fps2 rest) ∧
      (fps2.contains fp = false →
        importLoop acc2 fps2 (it :: rest) = importLoop (acc2 ++ [it]) (fp :: fps2) rest)) ∧
    import_events
        [.obj [("start", .str "2024-05-01T15:00:00"), ("title", .str "Meeting")]]
        [.obj [("start", .str "2024-05-01T15:00:00"), ("title", .str "Meeting")],
         .obj [("start", .str "2024-05-01T16:00:00"), ("title", .str "Lecture")]] =
      some [.obj [("start", .str "2024-05-01T15:00:00"), ("title", .str "Meeting")],
            .obj [("start", .str "2024-05-01T16:00:00"), ("title", .str "Lecture")]] := by
  have hrun2 : importLoop ev fps items = some out := by
    simpa [import_events, hfps] using hrun
  refine ⟨importLoop_extends items ev fps out hrun2,
    importLoop_nodup items ev fps fps out (fpAll_of_existing ev fps hfps) hnd
      (fun x hx => hx) hrun2, rfl, ?_, rfl⟩
  intro acc2 fps2 it fp rest hfp
  have h0 : importLoop acc2 fps2 (it :: rest) =
      (if fps2.contains fp = true then importLoop acc2 fps2 rest
       else importLoop (acc2 ++ [it]) (fp :: fps2) rest) := by
    simp only [importLoop, hfp]
  constructor
  · intro hc; rw [h0, if_pos hc]
  · intro hc; rw [h0, if_neg (fun hx => by rw [hx] at hc; exact Bool.noConfusion hc)]

/-- Claim C5 witness: the import statement at the spec's concrete
example. -/
theorem calendar_import_dedup_witness :
    (∃ kept,
      [Json.obj [("start", .str "2024-05-01T15:00:00"), ("title", .str "Meeting")],
       Json.obj [("start", .str "2024-05-01T16:00:00"), ("title", .str "Lecture")]] =
      [Json.obj [("start", .str "2024-05-01T15:00:00"), ("title", .str "Meeting")]] ++ kept) ∧
    (∃ ofps, fpAll
      [Json.obj [("start", .str "2024-05-01T15:00:00"), ("title", .str "Meeting")],
       Json.obj [("start", .str "2024-05-01T16:00:00"), ("title", .str "Lecture")]] =
      some ofps ∧ ofps.Nodup) := by
  have h := calendar_import_dedup
    [Json.obj [("start", .str "2024-05-01T15:00:00"), ("title", .str "Meeting")]]
    [Json.obj [("start", .str "2024-05-01T15:00:00"), ("title", .str "Meeting")],
     Json.obj [("start", .str "2024-05-01T16:00:00"), ("title", .str "Lecture")]]
    ["2024-05-01T15:00:00_Meeting"]
    [Json.obj [("start", .str "2024-05-01T15:00:00"), ("title", .str "Meeting")],
     Json.obj [("start", .str "2024-05-01T16:00:00"), ("title", .str "Lecture")]]
    rfl (by simp) rfl
  exact ⟨h.1, h.2.1⟩

/-- Claim C10: the existing-fingerprint comprehension uses direct
subscription, so the import runs without raising exactly when every
existing record has both a `start` and a `title` key (otherwise the
whole import raises), while candidates are read with `.get`, a missing key
contributing the text `None` to the fingerprint. -/
theorem import_direct_access_keys (ev items : List Json) :
    ((existing_fingerprints ev).isSome ↔
      ∀ e ∈ ev, (getItem e "start").isSome ∧ (getItem e "title").isSome) ∧
    (existing_fingerprints ev = none → import_events ev items = none) ∧
    fpNew (.obj []) = some "None_None" ∧
    fpNew (.obj [("start", .str "2024-05-01T15:00:00")]) =
      some "2024-05-01T15:00:00_None" := by
  refine ⟨existing_fingerprints_isSome ev, fun h => ?_, rfl, rfl⟩
  simp [import_events, h]

/-- Claim C10 witness: the statement at a concrete existing record
missing both keys, on which the import raises. -/
theorem import_direct_access_keys_witness :
    existing_fingerprints [Json.obj []] = none ∧
    import_events [Json.obj []] [] = none :=
  ⟨rfl, (import_direct_access_keys [Json.obj []] []).2.1 rfl⟩

/-! ## Claim C8: serialise/parse round trip -/

/-- A digit character carries its digit and passes the digit test. -/
theorem digCh_spec (d : Nat) (h : d < 10) :
    isDig (digCh d) = true ∧ (digCh d).toNat = 48 + d := by
  interval_cases d <;> exact ⟨by decide, by decide⟩

/-- The digit renderer ignores its exact fuel once it exceeds the
number. -/
theorem natChars_fuel : ∀ (n f : Nat), n < f → natChars f n = natStr n := by
  intro n
  induction n using Nat.strong_induction_on with
  | _ n ih =>
    intro f hf
    cases f with
    | zero => omega
    | succ f =>
      by_cases h10 : n < 10
      · simp [natChars, natStr, h10]
      · have hdiv : n / 10 < n := Nat.div_lt_self (by omega) (by omega)
        show (if n < 10 then [digCh n] else natChars f (n / 10) ++ [digCh (n % 10)]) = natStr n
        rw [if_neg h10, ih (n / 10) hdiv f (by omega)]
        show _ = natChars (n + 1) n
        have : natChars (n + 1) n =
            (if n < 10 then [digCh n] else natChars n (n / 10) ++ [digCh (n % 10)]) := rfl
        rw [this, if_neg h10, ih (n / 10) hdiv n (by omega)]

/-- One-step last-digit-first unfolding of the digit renderer. -/
theorem natStr_unfold (n : Nat) :
    natStr n = if n < 10 then [digCh n] else natStr (n / 10) ++ [digCh (n % 10)] := by
  show natChars (n + 1) n = _
  by_cases h10 : n < 10
  · simp [natChars, h10]
  · have : natChars (n + 1) n =
        (if n < 10 then [digCh n] else natChars n (n / 10) ++ [digCh (n % 10)]) := rfl
    rw [this, if_neg h10, if_neg h10,
      natChars_fuel (n / 10) n (by have := Nat.div_lt_self (by omega : 0 < n) (by omega : 1 < 10); omega)]

/-- A rendered number is never empty. -/
theorem natStr_ne_nil (n : Nat) : natStr n ≠ [] := by
  rw [natStr_unfold]; split <;> simp

/-- Every character of a rendered number is a digit. -/
theorem natStr_digits (n : Nat) : ∀ c ∈ natStr n, isDig c = true := by
  induction n using Nat.strong_induction_on with
  | _ n ih =>
    rw [natStr_unfold]
    intro c hc
    by_cases h10 : n < 10
    · rw [if_pos h10] at hc
      simp only [List.mem_singleton] at hc
      exact hc ▸ (digCh_spec n h10).1
    · rw [if_neg h10] at hc
      rcases List.mem_append.mp hc with h1 | h2
      · exact ih (n / 10) (Nat.div_lt_self (by omega) (by omega)) c h1
      · simp only [List.mem_singleton] at h2
        exact h2 ▸ (digCh_spec (n % 10) (Nat.mod_lt _ (by omega))).1

/-- Reading back the digits of a rendered number recovers it. -/
theorem digitsNat_natStr (n : Nat) : digitsNat (natStr n) = n := by
  induction n using Nat.strong_induction_on with
  | _ n ih =>
    rw [natStr_unfold]
    by_cases h10 : n < 10
    · rw [if_pos h10]
      simp [digitsNat, (digCh_spec n h10).2]
    · rw [if_neg h10]
      unfold digitsNat
      rw [List.foldl_append]
      have hih := ih (n / 10) (Nat.div_lt_self (by omega) (by omega))
      unfold digitsNat at hih
      rw [hih]
      simp [(digCh_spec (n % 10) (Nat.mod_lt _ (by omega))).2]
      omega

/-- A rendered number starts with a digit. -/
theorem natStr_head (n : Nat) :
    ∃ c t, natStr n = c :: t ∧ isDig c = true := by
  cases h : natStr n with
  | nil => exact absurd h (natStr_ne_nil n)
  | cons c t => exact ⟨c, t, rfl, natStr_digits n c (h ▸ List.mem_cons_self ..)⟩

/-- The digit grabber stops immediately on a non-digit start. -/
theorem grabDigits_stop (cs : List Char) (h : noDigStart cs = true) :
    grabDigits cs = ([], cs) := by
  cases cs with
  | nil => rfl
  | cons c t =>
    simp only [noDigStart, Bool.not_eq_true'] at h
    simp [grabDigits, h]

/-- The digit grabber consumes exactly a leading digit run. -/
theorem grabDigits_run (ds : List Char) (hds : ∀ c ∈ ds, isDig c = true)
    (rest : List Char) (hr : grabDigits rest = ([], rest)) :
    grabDigits (ds ++ rest) = (ds, rest) := by
  induction ds with
  | nil => simpa using hr
  | cons c t ih =>
    have hc : isDig c = true := hds c (by simp)
    have ht := ih (fun x hx => hds x (by simp [hx]))
    simp [grabDigits, hc, ht]

/-- A digit is not a minus sign. -/
theorem isDig_ne_minus (c : Char) (h : isDig c = true) : c ≠ '-' :=
  fun hc => by rw [hc] at h; exact absurd h (by decide)

/-- The integer codec round trip: reading a rendered integer recovers it
whenever the remainder cannot extend the digit run. -/
theorem pyNum_intChars (i : Int) (rest : List Char)
    (hr : noDigStart rest = true) :
    pyNum (intChars i ++ rest) = some (i, rest) := by
  have hgrab : grabDigits (natStr i.natAbs ++ rest) = (natStr i.natAbs, rest) :=
    grabDigits_run _ (natStr_digits _) _ (grabDigits_stop _ hr)
  by_cases hi : i < 0
  · have harg : intChars i ++ rest = '-' :: (natStr i.natAbs ++ rest) := by
      simp [intChars, hi]
    rw [harg]
    have hne := natStr_ne_nil i.natAbs
    simp [pyNum, hgrab, hne, digitsNat_natStr]
    simp [abs_of_neg hi]
  · obtain ⟨c0, t0, h0, hc0⟩ := natStr_head i.natAbs
    have harg : intChars i ++ rest = c0 :: (t0 ++ rest) := by
      simp [intChars, hi, h0]
    have hgrab2 : grabDigits (c0 :: (t0 ++ rest)) = (c0 :: t0, rest) := by
      rw [show c0 :: (t0 ++ rest) = (c0 :: t0) ++ rest from rfl, ← h0]
      exact hgrab
    rw [harg]
    have hcm := isDig_ne_minus c0 hc0
    have hval : digitsNat (c0 :: t0) = i.natAbs := by
      have hd := digitsNat_natStr i.natAbs
      rwa [h0] at hd
    simp [pyNum, hcm, hgrab2, hval]
    omega

/-- A hexadecimal digit character carries its value. -/
theorem hexDigitVal_hexCh (d : Nat) (h : d < 16) :
    hexDigitVal (hexCh d) = some d := by
  interval_cases d <;> decide

/-- Reading one escaped character undoes the escape. -/
theorem pyStrBody_esc (c : Char) (acc rest : List Char) :
    pyStrBody acc (escChar c ++ rest) = pyStrBody (c :: acc) rest := by
  unfold escChar
  split_ifs with h1 h2 h3 h4 h5 h6 h7 h8
  · subst h1; rw [pyStrBody.eq_def]; simp [escSeq]
  · subst h2; rw [pyStrBody.eq_def]; simp [escSeq]
  · subst h3; rw [pyStrBody.eq_def]; simp [escSeq]
  · subst h4; rw [pyStrBody.eq_def]; simp [escSeq]
  · subst h5; rw [pyStrBody.eq_def]; simp [escSeq]
  · subst h6; rw [pyStrBody.eq_def]; simp [escSeq]
  · subst h7; rw [pyStrBody.eq_def]; simp [escSeq]
  · show pyStrBody acc
      ('\\' :: 'u' :: '0' :: '0' :: hexCh (c.toNat / 16) :: hexCh (c.toNat % 16) :: rest) = _
    have hq : hexQuad '0' '0' (hexCh (c.toNat / 16)) (hexCh (c.toNat % 16)) =
        some c.toNat := by
      simp only [hexQuad, hexDigitVal_hexCh (c.toNat / 16) (by omega),
        hexDigitVal_hexCh (c.toNat % 16) (by omega)]
      show some (((0 * 16 + 0) * 16 + c.toNat / 16) * 16 + c.toNat % 16) = _
      congr 1
      omega
    rw [pyStrBody.eq_def]
    simp [hq, Char.ofNat_toNat]
  · have hlt : ¬ c.toNat < 32 := h8
    simp only [List.cons_append, List.nil_append]
    show pyStrBody acc (c :: rest) = _
    rw [pyStrBody.eq_def]
    simp only [if_neg h1, if_neg h2, if_neg hlt]

/-- Reading an escaped body stops exactly at the closing quote. -/
theorem pyStrBody_flat (l : List Char) : ∀ (acc rest : List Char),
    pyStrBody acc (l.flatMap escChar ++ '"' :: rest) =
      some (String.mk (acc.reverse ++ l), rest) := by
  induction l with
  | nil =>
    intro acc rest
    rw [List.flatMap_nil, List.nil_append, pyStrBody.eq_def]
    simp
  | cons c l ih =>
    intro acc rest
    rw [List.flatMap_cons, List.append_assoc, pyStrBody_esc, ih]
    simp

/-- The string codec round trip: reading a rendered string body recovers
the string. -/
theorem pyStrBody_escBody (s : String) (rest : List Char) :
    pyStrBody [] (escBody s ++ '"' :: rest) = some (s, rest) := by
  rw [escBody, pyStrBody_flat]
  rfl

/-- Dropping whitespace walks through an all-whitespace prefix. -/
theorem eatWs_ws_append (wsp : List Char) (hw : ∀ c ∈ wsp, jsonWs c = true)
    (x : List Char) : eatWs (wsp ++ x) = eatWs x := by
  induction wsp with
  | nil => rfl
  | cons c t ih =>
    have hc : jsonWs c = true := hw c (by simp)
    rw [List.cons_append]
    show (if jsonWs c then eatWs (t ++ x) else c :: (t ++ x)) = eatWs x
    rw [if_pos hc, ih (fun y hy => hw y (by simp [hy]))]

/-- Dropping whitespace stops at a non-whitespace head. -/
theorem eatWs_of_head (c : Char) (t : List Char) (h : jsonWs c = false) :
    eatWs (c :: t) = c :: t := by
  show (if jsonWs c then eatWs t else c :: t) = c :: t
  rw [h]
  simp

/-- The newline-and-indentation run is all whitespace. -/
theorem nlInd_ws (lvl : Nat) : ∀ c ∈ nlInd lvl, jsonWs c = true := by
  intro c hc
  simp only [nlInd, List.mem_cons] at hc
  rcases hc with rfl | hc
  · decide
  · rw [List.eq_of_mem_replicate hc]; decide

/-- The newline-and-indentation run does not start with a digit. -/
theorem nlInd_noDig (lvl : Nat) (x : List Char) :
    noDigStart (nlInd lvl ++ x) = true := rfl

/-- A digit is neither whitespace nor any token-starting character. -/
theorem isDig_notClass (c : Char) (hd : isDig c = true) :
    jsonWs c = false ∧ c ≠ ']' ∧ c ≠ '\x7d' ∧ c ≠ 'n' ∧ c ≠ 't' ∧ c ≠ 'f' ∧
      c ≠ '"' ∧ c ≠ '[' ∧ c ≠ '\x7b' := by
  have hne : ∀ x : Char, isDig x = false → c ≠ x := fun x hx hc => by
    rw [hc] at hd; rw [hd] at hx; exact Bool.noConfusion hx
  have hws : jsonWs c = false := by
    cases hj : jsonWs c
    · rfl
    · simp only [jsonWs, decide_eq_true_eq] at hj
      rcases hj with h | h | h | h <;>
        exact absurd h (hne _ (by decide))
  exact ⟨hws, hne _ (by decide), hne _ (by decide), hne _ (by decide),
    hne _ (by decide), hne _ (by decide), hne _ (by decide), hne _ (by decide),
    hne _ (by decide)⟩

/-- Every rendered value starts with a non-whitespace character that
closes neither an array nor an object. -/
theorem dVal_head (lvl : Nat) (j : Json) :
    ∃ c t, dVal lvl j = c :: t ∧ jsonWs c = false ∧ c ≠ ']' ∧ c ≠ '\x7d' := by
  cases j with
  | null =>
    have heq : dVal lvl .null = 'n' :: ['u', 'l', 'l'] := by simp [dVal]
    exact ⟨_, _, heq, by decide, by decide, by decide⟩
  | bool b =>
    cases b with
    | true =>
      have heq : dVal lvl (.bool true) = 't' :: ['r', 'u', 'e'] := by simp [dVal]
      exact ⟨_, _, heq, by decide, by decide, by decide⟩
    | false =>
      have heq : dVal lvl (.bool false) = 'f' :: ['a', 'l', 's', 'e'] := by simp [dVal]
      exact ⟨_, _, heq, by decide, by decide, by decide⟩
  | str s =>
    have heq : dVal lvl (.str s) = '"' :: (escBody s ++ ['"']) := by
      simp [dVal, strChars]
    exact ⟨_, _, heq, by decide, by decide, by decide⟩
  | arr l =>
    cases l with
    | nil =>
      have heq : dVal lvl (.arr []) = '[' :: [']'] := by simp [dVal]
      exact ⟨_, _, heq, by decide, by decide, by decide⟩
    | cons x xs =>
      have heq : dVal lvl (.arr (x :: xs)) =
          '[' :: (nlInd (lvl + 1) ++ dItems (lvl + 1) x xs ++ nlInd lvl ++ [']']) := by
        simp [dVal]
      exact ⟨_, _, heq, by decide, by decide, by decide⟩
  | obj ms =>
    cases ms with
    | nil =>
      have heq : dVal lvl (.obj []) = '\x7b' :: ['\x7d'] := by simp [dVal]
      exact ⟨_, _, heq, by decide, by decide, by decide⟩
    | cons p ps =>
      have heq : dVal lvl (.obj (p :: ps)) =
          '\x7b' :: (nlInd (lvl + 1) ++ dPairs (lvl + 1) p ps ++ nlInd lvl ++ ['\x7d']) := by
        simp [dVal]
      exact ⟨_, _, heq, by decide, by decide, by decide⟩
  | num i =>
    by_cases hi : i < 0
    · have heq : dVal lvl (.num i) = '-' :: natStr i.natAbs := by
        simp [dVal, intChars, hi]
      exact ⟨_, _, heq, by decide, by decide, by decide⟩
    · obtain ⟨c0, t0, h0, hc0⟩ := natStr_head i.natAbs
      obtain ⟨hws, hbr, hbc, _⟩ := isDig_notClass c0 hc0
      have heq : dVal lvl (.num i) = c0 :: t0 := by
        simp [dVal, intChars, hi, h0]
      exact ⟨_, _, heq, hws, hbr, hbc⟩

/-- Dropping whitespace leaves a rendered value alone. -/
theorem eatWs_dVal (lvl : Nat) (j : Json) (x : List Char) :
    eatWs (dVal lvl j ++ x) = dVal lvl j ++ x := by
  obtain ⟨c, t, heq, hws, _, _⟩ := dVal_head lvl j
  rw [heq, List.cons_append, eatWs_of_head _ _ hws]

/-- A rendered element list begins with its first rendered value. -/
theorem dItems_eq_dVal (lvl : Nat) (x : Json) (xs : List Json) :
    ∃ t2, dItems lvl x xs = dVal lvl x ++ t2 := by
  cases xs with
  | nil => exact ⟨[], by simp [dItems]⟩
  | cons y ys =>
    have heq : dItems lvl x (y :: ys) =
        dVal lvl x ++ (',' :: (nlInd lvl ++ dItems lvl y ys)) := by
      simp [dItems]
    exact ⟨_, heq⟩

/-- One-step unfolding of the value reader at successor fuel. -/
theorem pyVal_step (fu : Nat) (cs : List Char) :
    pyVal (fu + 1) cs =
      (match eatWs cs with
       | 'n' :: 'u' :: 'l' :: 'l' :: r => some (.null, r)
       | 't' :: 'r' :: 'u' :: 'e' :: r => some (.bool true, r)
       | 'f' :: 'a' :: 'l' :: 's' :: 'e' :: r => some (.bool false, r)
       | '"' :: r =>
         match pyStrBody [] r with
         | some (s, rest) => some (.str s, rest)
         | none => none
       | '[' :: r =>
         match eatWs r with
         | [] => none
         | c2 :: r2 =>
           if c2 = ']' then some (.arr [], r2)
           else
             match pyElems fu (c2 :: r2) with
             | some (l, rest) => some (.arr l, rest)
             | none => none
       | '\x7b' :: r =>
         match eatWs r with
         | [] => none
         | c2 :: r2 =>
           if c2 = '\x7d' then some (.obj [], r2)
           else
             match pyPairs fu (c2 :: r2) with
             | some (ms, rest) => some (.obj ms, rest)
             | none => none
       | c :: r =>
         if c == '-' || isDig c then
           match pyNum (c :: r) with
           | some (n, rest) => some (.num n, rest)
           | none => none
         else none
       | [] => none) := rfl

/-- One-step unfolding of the element reader at successor fuel. -/
theorem pyElems_step (fu : Nat) (cs : List Char) :
    pyElems (fu + 1) cs =
      (match pyVal fu cs with
       | none => none
       | some (j, r) =>
         match eatWs r with
         | [] => none
         | c2 :: r2 =>
           if c2 = ',' then
             match pyElems fu r2 with
             | some (l, rest) => some (j :: l, rest)
             | none => none
           else if c2 = ']' then some ([j], r2)
           else none) := rfl

/-- One-step unfolding of the member reader at successor fuel. -/
theorem pyPairs_step (fu : Nat) (cs : List Char) :
    pyPairs (fu + 1) cs =
      (match eatWs cs with
       | '"' :: r =>
         match pyStrBody [] r with
         | none => none
         | some (k, r1) =>
           match eatWs r1 with
           | ':' :: r2 =>
             match pyVal fu r2 with
             | none => none
             | some (v, r3) =>
               match eatWs r3 with
               | [] => none
               | c4 :: r4 =>
                 if c4 = ',' then
                   match pyPairs fu r4 with
                   | some (ms, rest) => some ((k, v) :: ms, rest)
                   | none => none
                 else if c4 = '\x7d' then some ([(k, v)], r4)
                 else none
           | _ => none
       | _ => none) := rfl

/-- The value reader ignores an all-whitespace prefix. -/
theorem pyVal_ws (fu : Nat) (wsp : List Char) (hw : ∀ c ∈ wsp, jsonWs c = true)
    (cs : List Char) : pyVal fu (wsp ++ cs) = pyVal fu cs := by
  cases fu with
  | zero => rfl
  | succ f => rw [pyVal_step, pyVal_step, eatWs_ws_append wsp hw cs]

/-- The element reader ignores an all-whitespace prefix (its first act is
reading a value). -/
theorem pyElems_ws (fu : Nat) (wsp : List Char) (hw : ∀ c ∈ wsp, jsonWs c = true)
    (cs : List Char) : pyElems fu (wsp ++ cs) = pyElems fu cs := by
  cases fu with
  | zero => rfl
  | succ f => rw [pyElems_step, pyElems_step, pyVal_ws f wsp hw cs]

/-- The member reader ignores an all-whitespace prefix. -/
theorem pyPairs_ws (fu : Nat) (wsp : List Char) (hw : ∀ c ∈ wsp, jsonWs c = true)
    (cs : List Char) : pyPairs fu (wsp ++ cs) = pyPairs fu cs := by
  cases fu with
  | zero => rfl
  | succ f => rw [pyPairs_step, pyPairs_step, eatWs_ws_append wsp hw cs]

/-- A value whose input starts like a number goes through the number
reader. -/
theorem pyVal_num_branch (f : Nat) (d0 : Char) (t : List Char)
    (kws : jsonWs d0 = false)
    (kno : d0 ≠ 'n' ∧ d0 ≠ 't' ∧ d0 ≠ 'f' ∧ d0 ≠ '"' ∧ d0 ≠ '[' ∧ d0 ≠ '\x7b')
    (kgo : (d0 == '-' || isDig d0) = true) :
    pyVal (f + 1) (d0 :: t) =
      (match pyNum (d0 :: t) with
       | some (n, rest) => some (.num n, rest)
       | none => none) := by
  obtain ⟨k1, k2, k3, k4, k5, k6⟩ := kno
  rw [pyVal_step, eatWs_of_head d0 t kws]
  simp [k1, k2, k3, k4, k5, k6, kgo]

/-- The value reader round trip for numbers. -/
theorem pyVal_num (i : Int) (f lvl : Nat) (rest : List Char)
    (hr : noDigStart rest = true) :
    pyVal (f + 1) (dVal lvl (.num i) ++ rest) = some (.num i, rest) := by
  have hdv : dVal lvl (.num i) = intChars i := by simp [dVal]
  rw [hdv]
  by_cases hi : i < 0
  · have harg : intChars i ++ rest = '-' :: (natStr i.natAbs ++ rest) := by
      simp [intChars, hi]
    rw [harg, pyVal_num_branch f '-' _ (by decide) (by decide) (by decide), ← harg,
      pyNum_intChars i rest hr]
  · obtain ⟨c0, t0, h0, hc0⟩ := natStr_head i.natAbs
    obtain ⟨hws, _, _, hn, ht, hf2, hq, hbk, hbc⟩ := isDig_notClass c0 hc0
    have harg : intChars i ++ rest = c0 :: (t0 ++ rest) := by
      simp [intChars, hi, h0]
    rw [harg, pyVal_num_branch f c0 _ hws ⟨hn, ht, hf2, hq, hbk, hbc⟩ (by simp [hc0]),
      ← harg, pyNum_intChars i rest hr]

/-- Length of the indentation run. -/
theorem nlInd_length (lvl : Nat) : (nlInd lvl).length = 4 * lvl + 1 := by
  simp [nlInd]

/-- A rendered value is nonempty. -/
theorem dVal_length_pos (lvl : Nat) (j : Json) : 1 ≤ (dVal lvl j).length := by
  obtain ⟨c, t, heq, _, _, _⟩ := dVal_head lvl j
  rw [heq]
  simp

mutual
/-- Round trip for one value: reading a rendered value back recovers it
exactly, leaving the remainder untouched, whatever the indentation
level. -/
theorem rt_val : ∀ (j : Json) (lvl fuel : Nat) (rest : List Char),
    (dVal lvl j).length < fuel → noDigStart rest = true →
    pyVal fuel (dVal lvl j ++ rest) = some (j, rest)
  | .null, lvl, fuel, rest, hf, _ => by
    have heq : dVal lvl .null = ['n', 'u', 'l', 'l'] := by simp [dVal]
    rw [heq] at hf ⊢
    cases fuel with
    | zero => simp at hf
    | succ f =>
      have e1 : eatWs (['n', 'u', 'l', 'l'] ++ rest) = 'n' :: 'u' :: 'l' :: 'l' :: rest :=
        eatWs_of_head _ _ (by decide)
      rw [pyVal_step, e1]
      rfl
  | .bool true, lvl, fuel, rest, hf, _ => by
    have heq : dVal lvl (.bool true) = ['t', 'r', 'u', 'e'] := by simp [dVal]
    rw [heq] at hf ⊢
    cases fuel with
    | zero => simp at hf
    | succ f =>
      have e1 : eatWs (['t', 'r', 'u', 'e'] ++ rest) = 't' :: 'r' :: 'u' :: 'e' :: rest :=
        eatWs_of_head _ _ (by decide)
      rw [pyVal_step, e1]
      rfl
  | .bool false, lvl, fuel, rest, hf, _ => by
    have heq : dVal lvl (.bool false) = ['f', 'a', 'l', 's', 'e'] := by simp [dVal]
    rw [heq] at hf ⊢
    cases fuel with
    | zero => simp at hf
    | succ f =>
      have e1 : eatWs (['f', 'a', 'l', 's', 'e'] ++ rest) =
          'f' :: 'a' :: 'l' :: 's' :: 'e' :: rest :=
        eatWs_of_head _ _ (by decide)
      rw [pyVal_step, e1]
      rfl
  | .num i, lvl, fuel, rest, hf, hr => by
    cases fuel with
    | zero => exact absurd hf (by omega)
    | succ f => exact pyVal_num i f lvl rest hr
  | .str s, lvl, fuel, rest, hf, _ => by
    have heq : dVal lvl (.str s) = '"' :: (escBody s ++ ['"']) := by
      simp [dVal, strChars]
    rw [heq] at hf ⊢
    cases fuel with
    | zero => exact absurd hf (by omega)
    | succ f =>
      have harg : ('"' :: (escBody s ++ ['"'])) ++ rest =
          '"' :: (escBody s ++ ('"' :: rest)) := by
        simp
      rw [harg]
      have e1 : eatWs ('"' :: (escBody s ++ ('"' :: rest))) =
          '"' :: (escBody s ++ ('"' :: rest)) :=
        eatWs_of_head _ _ (by decide)
      rw [pyVal_step, e1]
      show (match pyStrBody [] (escBody s ++ ('"' :: rest)) with
        | some (s2, rest2) => some (Json.str s2, rest2)
        | none => none) = some (Json.str s, rest)
      rw [pyStrBody_escBody s rest]
  | .arr [], lvl, fuel, rest, hf, _ => by
    have heq : dVal lvl (.arr []) = ['[', ']'] := by simp [dVal]
    rw [heq] at hf ⊢
    cases fuel with
    | zero => exact absurd hf (by omega)
    | succ f =>
      have e1 : eatWs (['[', ']'] ++ rest) = '[' :: (']' :: rest) :=
        eatWs_of_head _ _ (by decide)
      rw [pyVal_step, e1]
      show (match eatWs (']' :: rest) with
        | [] => none
        | c2 :: r2 =>
          if c2 = ']' then some (Json.arr [], r2)
          else
            match pyElems f (c2 :: r2) with
            | some (l, rest2) => some (Json.arr l, rest2)
            | none => none) = some (Json.arr [], rest)
      rw [eatWs_of_head _ _ (by decide)]
      simp
  | .arr (x :: xs), lvl, fuel, rest, hf, _ => by
    have heq : dVal lvl (.arr (x :: xs)) =
        '[' :: (nlInd (lvl + 1) ++ dItems (lvl + 1) x xs ++ nlInd lvl ++ [']']) := by
      simp [dVal]
    rw [heq] at hf ⊢
    cases fuel with
    | zero => exact absurd hf (by omega)
    | succ f =>
      have harg : ('[' :: (nlInd (lvl + 1) ++ dItems (lvl + 1) x xs ++ nlInd lvl ++ [']'])) ++ rest =
          '[' :: (nlInd (lvl + 1) ++ (dItems (lvl + 1) x xs ++ (nlInd lvl ++ (']' :: rest)))) := by
        simp
      rw [harg]
      have e1 : eatWs ('[' :: (nlInd (lvl + 1) ++ (dItems (lvl + 1) x xs ++ (nlInd lvl ++ (']' :: rest))))) =
          '[' :: (nlInd (lvl + 1) ++ (dItems (lvl + 1) x xs ++ (nlInd lvl ++ (']' :: rest)))) :=
        eatWs_of_head _ _ (by decide)
      rw [pyVal_step, e1]
      obtain ⟨t2, hit⟩ := dItems_eq_dVal (lvl + 1) x xs
      obtain ⟨c, t, hcv, hws, hbr, hbc⟩ := dVal_head (lvl + 1) x
      have e2 : eatWs (nlInd (lvl + 1) ++ (dItems (lvl + 1) x xs ++ (nlInd lvl ++ (']' :: rest)))) =
          dItems (lvl + 1) x xs ++ (nlInd lvl ++ (']' :: rest)) := by
        rw [eatWs_ws_append _ (nlInd_ws _), hit, List.append_assoc,
          eatWs_dVal, ← List.append_assoc, ← hit]
      have hsplit : dItems (lvl + 1) x xs ++ (nlInd lvl ++ (']' :: rest)) =
          c :: (t ++ t2 ++ (nlInd lvl ++ (']' :: rest))) := by
        rw [hit, hcv]
        simp
      have hkey := rt_items x xs (lvl + 1) lvl f rest (by
        simp only [List.length_cons, List.length_append, nlInd_length] at hf
        omega)
      show (match eatWs (nlInd (lvl + 1) ++ (dItems (lvl + 1) x xs ++ (nlInd lvl ++ (']' :: rest)))) with
        | [] => none
        | c2 :: r2 =>
          if c2 = ']' then some (Json.arr [], r2)
          else
            match pyElems f (c2 :: r2) with
            | some (l, rest2) => some (Json.arr l, rest2)
            | none => none) = some (Json.arr (x :: xs), rest)
      rw [e2, hsplit]
      show (if c = ']' then some (Json.arr [], t ++ t2 ++ (nlInd lvl ++ ']' :: rest))
        else
          match pyElems f (c :: (t ++ t2 ++ (nlInd lvl ++ ']' :: rest))) with
          | some (l, rest2) => some (Json.arr l, rest2)
          | none => none) = some (Json.arr (x :: xs), rest)
      rw [if_neg hbr, ← hsplit, hkey]
  | .obj [], lvl, fuel, rest, hf, _ => by
    have heq : dVal lvl (.obj []) = ['\x7b', '\x7d'] := by simp [dVal]
    rw [heq] at hf ⊢
    cases fuel with
    | zero => exact absurd hf (by omega)
    | succ f =>
      have e1 : eatWs (['\x7b', '\x7d'] ++ rest) = '\x7b' :: ('\x7d' :: rest) :=
        eatWs_of_head _ _ (by decide)
      rw [pyVal_step, e1]
      show (match eatWs ('\x7d' :: rest) with
        | [] => none
        | c2 :: r2 =>
          if c2 = '\x7d' then some (Json.obj [], r2)
          else
            match pyPairs f (c2 :: r2) with
            | some (ms, rest2) => some (Json.obj ms, rest2)
            | none => none) = some (Json.obj [], rest)
      rw [eatWs_of_head _ _ (by decide)]
      simp
  | .obj (p :: ps), lvl, fuel, rest, hf, _ => by
    have heq : dVal lvl (.obj (p :: ps)) =
        '\x7b' :: (nlInd (lvl + 1) ++ dPairs (lvl + 1) p ps ++ nlInd lvl ++ ['\x7d']) := by
      simp [dVal]
    rw [heq] at hf ⊢
    cases fuel with
    | zero => exact absurd hf (by omega)
    | succ f =>
      have harg : ('\x7b' :: (nlInd (lvl + 1) ++ dPairs (lvl + 1) p ps ++ nlInd lvl ++ ['\x7d'])) ++ rest =
          '\x7b' :: (nlInd (lvl + 1) ++ (dPairs (lvl + 1) p ps ++ (nlInd lvl ++ ('\x7d' :: rest)))) := by
        simp
      rw [harg]
      have e1 : eatWs ('\x7b' :: (nlInd (lvl + 1) ++ (dPairs (lvl + 1) p ps ++ (nlInd lvl ++ ('\x7d' :: rest))))) =
          '\x7b' :: (nlInd (lvl + 1) ++ (dPairs (lvl + 1) p ps ++ (nlInd lvl ++ ('\x7d' :: rest)))) :=
        eatWs_of_head _ _ (by decide)
      rw [pyVal_step, e1]
      have hdp : ∃ t3, dPairs (lvl + 1) p ps =
          '"' :: (escBody p.1 ++ ('"' :: t3)) := by
        obtain ⟨k, v⟩ := p
        cases ps with
        | nil =>
          refine ⟨':' :: ' ' :: dVal (lvl + 1) v, ?_⟩
          simp [dPairs, strChars]
        | cons q qs =>
          refine ⟨':' :: ' ' :: (dVal (lvl + 1) v ++
            ',' :: (nlInd (lvl + 1) ++ dPairs (lvl + 1) q qs)), ?_⟩
          simp [dPairs, strChars]
      obtain ⟨t3, hdp⟩ := hdp
      have e2 : eatWs (nlInd (lvl + 1) ++ (dPairs (lvl + 1) p ps ++ (nlInd lvl ++ ('\x7d' :: rest)))) =
          dPairs (lvl + 1) p ps ++ (nlInd lvl ++ ('\x7d' :: rest)) := by
        rw [eatWs_ws_append _ (nlInd_ws _), hdp]
        exact eatWs_of_head _ _ (by decide)
      have hsplit : dPairs (lvl + 1) p ps ++ (nlInd lvl ++ ('\x7d' :: rest)) =
          '"' :: ((escBody p.1 ++ ('"' :: t3)) ++ (nlInd lvl ++ ('\x7d' :: rest))) := by
        rw [hdp]
        simp
      have hkey := rt_pairs p ps (lvl + 1) lvl f rest (by
        simp only [List.length_cons, List.length_append, nlInd_length] at hf
        omega)
      show (match eatWs (nlInd (lvl + 1) ++ (dPairs (lvl + 1) p ps ++ (nlInd lvl ++ ('\x7d' :: rest)))) with
        | [] => none
        | c2 :: r2 =>
          if c2 = '\x7d' then some (Json.obj [], r2)
          else
            match pyPairs f (c2 :: r2) with
            | some (ms, rest2) => some (Json.obj ms, rest2)
            | none => none) = some (Json.obj (p :: ps), rest)
      rw [e2, hsplit]
      show (if ('"' : Char) = '\x7d' then
          some (Json.obj [], (escBody p.1 ++ ('"' :: t3)) ++ (nlInd lvl ++ '\x7d' :: rest))
        else
          match pyPairs f ('"' :: ((escBody p.1 ++ ('"' :: t3)) ++ (nlInd lvl ++ '\x7d' :: rest))) with
          | some (ms, rest2) => some (Json.obj ms, rest2)
          | none => none) = some (Json.obj (p :: ps), rest)
      rw [if_neg (by decide : ¬('"' : Char) = '\x7d'), ← hsplit, hkey]
  termination_by j _ _ _ _ _ => sizeOf j

/-- Round trip for a nonempty rendered element list followed by its
closing bracket. -/
theorem rt_items : ∀ (x : Json) (xs : List Json) (lvl lvlc fuel : Nat)
    (rest : List Char),
    (dItems lvl x xs).length + 1 < fuel →
    pyElems fuel (dItems lvl x xs ++ (nlInd lvlc ++ (']' :: rest))) =
      some (x :: xs, rest)
  | x, [], lvl, lvlc, fuel, rest, hf => by
    have heq : dItems lvl x [] = dVal lvl x := by simp [dItems]
    rw [heq] at hf ⊢
    cases fuel with
    | zero => exact absurd hf (by omega)
    | succ f =>
      have hv := rt_val x lvl f (nlInd lvlc ++ (']' :: rest)) (by omega)
        (nlInd_noDig lvlc _)
      have e1 : eatWs (nlInd lvlc ++ (']' :: rest)) = ']' :: rest := by
        rw [eatWs_ws_append _ (nlInd_ws _)]
        exact eatWs_of_head _ _ (by decide)
      rw [pyElems_step]
      simp only [hv, e1]
      simp
  | x, y :: ys, lvl, lvlc, fuel, rest, hf => by
    have heq : dItems lvl x (y :: ys) =
        dVal lvl x ++ (',' :: (nlInd lvl ++ dItems lvl y ys)) := by
      simp [dItems]
    rw [heq] at hf ⊢
    cases fuel with
    | zero => exact absurd hf (by omega)
    | succ f =>
      have harg : (dVal lvl x ++ (',' :: (nlInd lvl ++ dItems lvl y ys))) ++
          (nlInd lvlc ++ (']' :: rest)) =
          dVal lvl x ++ (',' :: (nlInd lvl ++
            (dItems lvl y ys ++ (nlInd lvlc ++ (']' :: rest))))) := by
        simp
      rw [harg]
      have hlen : (dVal lvl x).length < f ∧ (dItems lvl y ys).length + 1 < f := by
        simp only [List.length_append, List.length_cons, nlInd_length] at hf
        have h1 := dVal_length_pos lvl x
        omega
      have hv := rt_val x lvl f
        (',' :: (nlInd lvl ++ (dItems lvl y ys ++ (nlInd lvlc ++ (']' :: rest)))))
        hlen.1 rfl
      have e1 : eatWs (',' :: (nlInd lvl ++ (dItems lvl y ys ++ (nlInd lvlc ++ (']' :: rest))))) =
          ',' :: (nlInd lvl ++ (dItems lvl y ys ++ (nlInd lvlc ++ (']' :: rest)))) :=
        eatWs_of_head _ _ (by decide)
      have hkey := rt_items y ys lvl lvlc f rest hlen.2
      have hws := pyElems_ws f (nlInd lvl) (nlInd_ws lvl)
        (dItems lvl y ys ++ (nlInd lvlc ++ (']' :: rest)))
      rw [pyElems_step]
      simp only [hv, e1]
      rw [← List.append_assoc] at hws
      simp only [List.append_assoc] at hws
      simp only [hws, hkey]
      simp
  termination_by x xs _ _ _ _ _ => sizeOf x + sizeOf xs

theorem rt_pairs : ∀ (p : String × Json) (ps : List (String × Json))
    (lvl lvlc fuel : Nat) (rest : List Char),
    (dPairs lvl p ps).length + 1 < fuel →
    pyPairs fuel (dPairs lvl p ps ++ (nlInd lvlc ++ ('\x7d' :: rest))) =
      some (p :: ps, rest)
  | (k, v), [], lvl, lvlc, fuel, rest, hf => by
    have heq : dPairs lvl (k, v) [] = strChars k ++ ':' :: ' ' :: dVal lvl v := by
      simp [dPairs]
    rw [heq] at hf ⊢
    cases fuel with
    | zero => exact absurd hf (by omega)
    | succ f =>
      have harg : (strChars k ++ ':' :: ' ' :: dVal lvl v) ++ (nlInd lvlc ++ ('\x7d' :: rest)) =
          '"' :: (escBody k ++ ('"' :: (':' :: (' ' :: (dVal lvl v ++ (nlInd lvlc ++ ('\x7d' :: rest))))))) := by
        simp [strChars]
      rw [harg]
      have e1 : eatWs ('"' :: (escBody k ++ ('"' :: (':' :: (' ' :: (dVal lvl v ++ (nlInd lvlc ++ ('\x7d' :: rest)))))))) =
          '"' :: (escBody k ++ ('"' :: (':' :: (' ' :: (dVal lvl v ++ (nlInd lvlc ++ ('\x7d' :: rest))))))) :=
        eatWs_of_head _ _ (by decide)
      have hs := pyStrBody_escBody k
        (':' :: (' ' :: (dVal lvl v ++ (nlInd lvlc ++ ('\x7d' :: rest)))))
      have e2 : eatWs (':' :: (' ' :: (dVal lvl v ++ (nlInd lvlc ++ ('\x7d' :: rest))))) =
          ':' :: (' ' :: (dVal lvl v ++ (nlInd lvlc ++ ('\x7d' :: rest)))) :=
        eatWs_of_head _ _ (by decide)
      have hlen : (dVal lvl v).length < f := by
        simp only [List.length_append, List.length_cons, strChars] at hf
        omega
      have hv0 := rt_val v lvl f (nlInd lvlc ++ ('\x7d' :: rest)) hlen
        (nlInd_noDig lvlc _)
      have hv : pyVal f (' ' :: (dVal lvl v ++ (nlInd lvlc ++ ('\x7d' :: rest)))) =
          some (v, nlInd lvlc ++ ('\x7d' :: rest)) := by
        have hws2 := pyVal_ws f [' '] (by decide) (dVal lvl v ++ (nlInd lvlc ++ ('\x7d' :: rest)))
        rw [show ([' '] ++ (dVal lvl v ++ (nlInd lvlc ++ ('\x7d' :: rest)))) =
          ' ' :: (dVal lvl v ++ (nlInd lvlc ++ ('\x7d' :: rest))) from rfl] at hws2
        rw [hws2, hv0]
      have e3 : eatWs (nlInd lvlc ++ ('\x7d' :: rest)) = '\x7d' :: rest := by
        rw [eatWs_ws_append _ (nlInd_ws _)]
        exact eatWs_of_head _ _ (by decide)
      rw [pyPairs_step]
      simp only [e1, hs, e2, hv, e3]
      simp
  | (k, v), q :: qs, lvl, lvlc, fuel, rest, hf => by
    have heq : dPairs lvl (k, v) (q :: qs) =
        strChars k ++ ':' :: ' ' :: dVal lvl v ++
          ',' :: (nlInd lvl ++ dPairs lvl q qs) := by
      simp [dPairs]
    rw [heq] at hf ⊢
    cases fuel with
    | zero => exact absurd hf (by omega)
    | succ f =>
      have harg : (strChars k ++ ':' :: ' ' :: dVal lvl v ++
          ',' :: (nlInd lvl ++ dPairs lvl q qs)) ++ (nlInd lvlc ++ ('\x7d' :: rest)) =
          '"' :: (escBody k ++ ('"' :: (':' :: (' ' :: (dVal lvl v ++
            (',' :: (nlInd lvl ++ (dPairs lvl q qs ++ (nlInd lvlc ++ ('\x7d' :: rest)))))))))) := by
        simp [strChars]
      rw [harg]
      have e1 : eatWs ('"' :: (escBody k ++ ('"' :: (':' :: (' ' :: (dVal lvl v ++
          (',' :: (nlInd lvl ++ (dPairs lvl q qs ++ (nlInd lvlc ++ ('\x7d' :: rest))))))))))) =
          '"' :: (escBody k ++ ('"' :: (':' :: (' ' :: (dVal lvl v ++
            (',' :: (nlInd lvl ++ (dPairs lvl q qs ++ (nlInd lvlc ++ ('\x7d' :: rest)))))))))) :=
        eatWs_of_head _ _ (by decide)
      have hs := pyStrBody_escBody k
        (':' :: (' ' :: (dVal lvl v ++
          (',' :: (nlInd lvl ++ (dPairs lvl q qs ++ (nlInd lvlc ++ ('\x7d' :: rest))))))))
      have e2 : eatWs (':' :: (' ' :: (dVal lvl v ++
          (',' :: (nlInd lvl ++ (dPairs lvl q qs ++ (nlInd lvlc ++ ('\x7d' :: rest)))))))) =
          ':' :: (' ' :: (dVal lvl v ++
          (',' :: (nlInd lvl ++ (dPairs lvl q qs ++ (nlInd lvlc ++ ('\x7d' :: rest))))))) :=
        eatWs_of_head _ _ (by decide)
      have hlen : (dVal lvl v).length < f ∧ (dPairs lvl q qs).length + 1 < f := by
        simp only [List.length_append, List.length_cons, strChars, nlInd_length] at hf
        omega
      have hv0 := rt_val v lvl f
        (',' :: (nlInd lvl ++ (dPairs lvl q qs ++ (nlInd lvlc ++ ('\x7d' :: rest)))))
        hlen.1 rfl
      have hv : pyVal f (' ' :: (dVal lvl v ++
          (',' :: (nlInd lvl ++ (dPairs lvl q qs ++ (nlInd lvlc ++ ('\x7d' :: rest))))))) =
          some (v, ',' :: (nlInd lvl ++ (dPairs lvl q qs ++ (nlInd lvlc ++ ('\x7d' :: rest))))) := by
        have hws2 := pyVal_ws f [' '] (by decide) (dVal lvl v ++
          (',' :: (nlInd lvl ++ (dPairs lvl q qs ++ (nlInd lvlc ++ ('\x7d' :: rest))))))
        rw [show ([' '] ++ (dVal lvl v ++
          (',' :: (nlInd lvl ++ (dPairs lvl q qs ++ (nlInd lvlc ++ ('\x7d' :: rest))))))) =
          ' ' :: (dVal lvl v ++
          (',' :: (nlInd lvl ++ (dPairs lvl q qs ++ (nlInd lvlc ++ ('\x7d' :: rest)))))) from rfl] at hws2
        rw [hws2, hv0]
      have e3 : eatWs (',' :: (nlInd lvl ++ (dPairs lvl q qs ++ (nlInd lvlc ++ ('\x7d' :: rest))))) =
          ',' :: (nlInd lvl ++ (dPairs lvl q qs ++ (nlInd lvlc ++ ('\x7d' :: rest)))) :=
        eatWs_of_head _ _ (by decide)
      have hkey := rt_pairs q qs lvl lvlc f rest hlen.2
      have hws3 := pyPairs_ws f (nlInd lvl) (nlInd_ws lvl)
        (dPairs lvl q qs ++ (nlInd lvlc ++ ('\x7d' :: rest)))
      rw [pyPairs_step]
      simp only [e1, hs, e2, hv, e3]
      rw [← List.append_assoc] at hws3
      simp only [List.append_assoc] at hws3
      simp only [hws3, hkey]
      simp
  termination_by p ps _ _ _ _ _ => sizeOf p + sizeOf ps
end

/-- The full codec round trip: `json.loads` inverts
`json.dumps(..., indent=4, ensure_ascii=False)` on every value. -/
theorem pyLoads_pyDumps (j : Json) : pyLoads (pyDumps j) = some j := by
  have h := rt_val j 0 ((dVal 0 j).length + 1) [] (by omega) rfl
  rw [List.append_nil] at h
  show (match pyVal ((dVal 0 j).length + 1) (dVal 0 j) with
    | some (j2, r) => if eatWs r = [] then some j2 else none
    | none => none) = some j
  rw [h]
  simp [eatWs]

/-- Claim C8: a successful write followed by a read returns the written
records field-for-field: the stored text is exactly the indent-4 JSON
serialisation (with non-ASCII characters, code points 127 and above,
written literally by the escaper), and reading parses it back to the same
sequence with the new version token present. -/
theorem save_load_roundtrip (repo : Option RepoFile) (data : List Json)
    (tok : Option Nat) (m : String)
    (hok : (DataManager.save repo data tok m).1 = true) :
    (DataManager.load (DataManager.save repo data tok m).2).1 = data ∧
    ((DataManager.load (DataManager.save repo data tok m).2).2).isSome = true ∧
    (∀ f2, (DataManager.save repo data tok m).2 = some f2 →
      f2.text = pyDumps (.arr data)) ∧
    (∀ c : Char, 127 ≤ c.toNat → escChar c = [c]) := by
  have hload : ∀ sh : Nat,
      DataManager.load (some ⟨pyDumps (.arr data), sh⟩) = (data, some sh) := by
    intro sh
    show (match pyLoads (pyDumps (.arr data)) with
      | some (.arr l) => (l, some sh)
      | some _ => ([], some sh)
      | none => ([], some sh)) = (data, some sh)
    rw [pyLoads_pyDumps (.arr data)]
  have hesc : ∀ c : Char, 127 ≤ c.toNat → escChar c = [c] := by
    intro c hc
    have hne : ∀ x : Char, x.toNat < 127 → c ≠ x := fun x hx he => by
      rw [he] at hc; omega
    unfold escChar
    rw [if_neg (hne _ (by decide)), if_neg (hne _ (by decide)),
      if_neg (hne _ (by decide)), if_neg (hne _ (by decide)),
      if_neg (hne _ (by decide)), if_neg (hne _ (by decide)),
      if_neg (hne _ (by decide)), if_neg (by omega)]
  match tok, repo with
  | some s, some f =>
    by_cases hsha : f.sha = s
    · have hsave : DataManager.save (some f) data (some s) m =
          (true, some ⟨pyDumps (.arr data), f.sha + 1⟩) := by
        simp [DataManager.save, hsha]
      rw [hsave]
      refine ⟨by rw [hload], by rw [hload]; rfl, ?_, hesc⟩
      intro f2 hf2
      simp only [Option.some.injEq] at hf2
      rw [← hf2]
    · exact absurd hok (by simp [DataManager.save, hsha])
  | some s, none => exact absurd hok (by simp [DataManager.save])
  | none, some f => exact absurd hok (by simp [DataManager.save])
  | none, none =>
    have hsave : DataManager.save none data none m =
        (true, some ⟨pyDumps (.arr data), 0⟩) := by
      simp [DataManager.save]
    rw [hsave]
    refine ⟨by rw [hload], by rw [hload]; rfl, ?_, hesc⟩
    intro f2 hf2
    simp only [Option.some.injEq] at hf2
    rw [← hf2]

/-- Claim C8 witness: the round trip at a concrete record list written
through a create. -/
theorem save_load_roundtrip_witness :
    (DataManager.save none [Json.obj [("item", .str "咖啡"), ("amount", .num (-20))]]
      none "m").1 = true ∧
    (DataManager.load (DataManager.save none
      [Json.obj [("item", .str "咖啡"), ("amount", .num (-20))]] none "m").2).1 =
      [Json.obj [("item", .str "咖啡"), ("amount", .num (-20))]] :=
  ⟨rfl, (save_load_roundtrip none
    [Json.obj [("item", .str "咖啡"), ("amount", .num (-20))]] none "m" rfl).1⟩
